import Mathlib

/-!
Shallow embedding of `src/tensor.py` (a minimal reverse-mode automatic
differentiation engine over scalar values).

Modelling choices:
* Python objects form a heap of mutable `Tensor` objects; we model the heap as
  an arena `Graph := List Tensor` and object references as `Nat` indices into
  the arena.  Object identity (`self in visited` uses Python identity) becomes
  index equality.  New objects are appended at the end of the arena, so every
  reference stored in a node points to a previously constructed node; this is
  exactly the "acyclic by construction" property of the source.
* Python floats are modelled as exact rationals `ℚ`.
* `None` becomes `Option.none`.
* The unbounded Python recursion in `build_topo` is modelled with explicit
  fuel; exhausted fuel returns `none`.  On graphs where parent indices
  strictly decrease (every graph actually built by the operations), fuel
  `g.length` always suffices, so the fuelled function agrees with the source.
* Dereferencing an absent derivative (`node.derivative * ...` with
  `node.derivative is None`, a `TypeError` in Python) is modelled by `backward`
  returning `none`.
-/

namespace TensorAD

/-- One `Tensor` object of `tensor.py`: `value`, `args` (operand references),
`local_derivatives` (references to the tensors holding the local derivatives),
`derivative` (absent until backward writes it), `name`. -/
structure Tensor where
  value : ℚ
  args : Option (List Nat)
  local_derivatives : Option (List Nat)
  derivative : Option ℚ
  name : Option String
deriving DecidableEq, Repr

/-- The heap of allocated Tensor objects, in allocation order. -/
abbrev Graph := List Tensor

/-- The default node used for out-of-range dereferences (never reached on
well-formed graphs). -/
def defTensor : Tensor := ⟨0, none, none, none, none⟩

/-- Dereference an object reference. -/
def getNode (g : Graph) (i : Nat) : Tensor := g.getD i defTensor

/-- The arg (parent) references of node `i` (empty list when `args` is `None`). -/
def argsOf (g : Graph) (i : Nat) : List Nat := ((getNode g i).args).getD []

/-- The local-derivative references of node `i`. -/
def ldsOf (g : Graph) (i : Nat) : List Nat := ((getNode g i).local_derivatives).getD []

/-- Write the `derivative` field of node `i` (the only field any operation of
the source ever mutates after construction). -/
def setDeriv (g : Graph) (i : Nat) (d : Option ℚ) : Graph :=
  g.set i { getNode g i with derivative := d }

/-- Model of `if arg.derivative is None: arg.derivative = contrib else: arg.derivative += contrib`
(lines 53-56 of `tensor.py`). -/
def accumDeriv (g : Graph) (i : Nat) (contrib : ℚ) : Graph :=
  match (getNode g i).derivative with
  | none => setDeriv g i (some contrib)
  | some old => setDeriv g i (some (old + contrib))

/-- Well-formedness of a heap: every node's arg references point to strictly
earlier nodes (Python operations only ever store previously constructed
objects), local-derivative references are valid, and the two tuples have equal
length.  Every graph built by `Tensor(...)`, `_add`, `_sub`, `_mul` satisfies
this. -/
def WF (g : Graph) : Prop :=
  ∀ i, i < g.length →
    (∀ a ∈ argsOf g i, a < i) ∧
    (∀ l ∈ ldsOf g i, l < g.length) ∧
    (argsOf g i).length = (ldsOf g i).length

/-- Model of `Tensor(value, name)`: allocate a fresh leaf. Returns the extended heap and
the reference to the new object. -/
def mkTensor (g : Graph) (v : ℚ) (nm : Option String) : Graph × Nat :=
  (g ++ [⟨v, none, none, none, nm⟩], g.length)

/-- Model of `_add(a, b)` (lines 119-123): result value `a.value + b.value`,
`local_derivatives = (Tensor(1), Tensor(1))` (two freshly allocated leaves),
`args = (a, b)`.  The result object is allocated first, then the two local
derivative leaves. -/
def _add (g : Graph) (a b : Nat) : Graph × Nat :=
  (g ++ [⟨(getNode g a).value + (getNode g b).value,
          some [a, b], some [g.length + 1, g.length + 2], none, none⟩,
         ⟨1, none, none, none, none⟩,
         ⟨1, none, none, none, none⟩],
   g.length)

/-- Model of `_sub(a, b)` (lines 125-129): value `a.value - b.value`,
`local_derivatives = (Tensor(1), Tensor(-1))`, `args = (a, b)`. -/
def _sub (g : Graph) (a b : Nat) : Graph × Nat :=
  (g ++ [⟨(getNode g a).value - (getNode g b).value,
          some [a, b], some [g.length + 1, g.length + 2], none, none⟩,
         ⟨1, none, none, none, none⟩,
         ⟨-1, none, none, none, none⟩],
   g.length)

/-- Model of `_mul(a, b)` (lines 131-135): value `a.value * b.value`,
`local_derivatives = (b, a)` — note: the operand objects themselves, no fresh
allocation — and `args = (a, b)`. -/
def _mul (g : Graph) (a b : Nat) : Graph × Nat :=
  (g ++ [⟨(getNode g a).value * (getNode g b).value,
          some [a, b], some [b, a], none, none⟩],
   g.length)

/-- An operand of the Python operator layer: a `Tensor`, a plain number
(`int` or `float`, both modelled as `ℚ`), or a value of any other type. -/
inductive Operand where
  | tensor (i : Nat)
  | num (x : ℚ)
  | other
deriving DecidableEq

/-- Model of `Tensor.__add__` (lines 70-76): delegate to `_add`, wrapping a plain number
as a fresh leaf; any other operand type returns `NotImplemented` (modelled as
`none`), which Python propagates as an unsupported-operand-type failure. -/
def dunder_add (g : Graph) (s : Nat) : Operand → Option (Graph × Nat)
  | .tensor i => some (_add g s i)
  | .num x => let p := mkTensor g x none; some (_add p.1 s p.2)
  | .other => none

/-- Model of `Tensor.__radd__` (lines 78-84). -/
def dunder_radd (g : Graph) (s : Nat) : Operand → Option (Graph × Nat)
  | .tensor i => some (_add g i s)
  | .num x => let p := mkTensor g x none; some (_add p.1 p.2 s)
  | .other => none

/-- Model of `Tensor.__sub__` (lines 86-92). -/
def dunder_sub (g : Graph) (s : Nat) : Operand → Option (Graph × Nat)
  | .tensor i => some (_sub g s i)
  | .num x => let p := mkTensor g x none; some (_sub p.1 s p.2)
  | .other => none

/-- Model of `Tensor.__rsub__` (lines 94-100). -/
def dunder_rsub (g : Graph) (s : Nat) : Operand → Option (Graph × Nat)
  | .tensor i => some (_sub g i s)
  | .num x => let p := mkTensor g x none; some (_sub p.1 p.2 s)
  | .other => none

/-- Model of `Tensor.__mul__` (lines 102-108). -/
def dunder_mul (g : Graph) (s : Nat) : Operand → Option (Graph × Nat)
  | .tensor i => some (_mul g s i)
  | .num x => let p := mkTensor g x none; some (_mul p.1 s p.2)
  | .other => none

/-- Model of `Tensor.__rmul__` (lines 110-116). -/
def dunder_rmul (g : Graph) (s : Nat) : Operand → Option (Graph × Nat)
  | .tensor i => some (_mul g i s)
  | .num x => let p := mkTensor g x none; some (_mul p.1 p.2 s)
  | .other => none

/-- Model of `Tensor.build_topo(order, visited)` (lines 30-39), with fuel for the
unbounded Python recursion.  State is the pair `(order, visited)`; both are
threaded, modelling the in-place mutation of the Python list and set.  The
`for arg in self.args` loop (lines 36-37) is the inner `foldlM`. -/
def build_topo (g : Graph) : Nat → Nat → List Nat × Finset Nat →
    Option (List Nat × Finset Nat)
  | 0, _, _ => none
  | fuel + 1, i, s =>
    if i ∈ s.2 then some s
    else
      match (getNode g i).args with
      | none => some (s.1 ++ [i], insert i s.2)
      | some as =>
        match as.foldlM (fun t a => build_topo g fuel a t)
            (s.1, insert i s.2) with
        | none => none
        | some t => some (t.1 ++ [i], t.2)

/-- The recursion of `build_topo` over an args list, named for the proofs. -/
def build_topo_args (g : Graph) (fuel : Nat) (l : List Nat)
    (s : List Nat × Finset Nat) : Option (List Nat × Finset Nat) :=
  l.foldlM (fun t a => build_topo g fuel a t) s

/-- One iteration of the inner loop of `backward` (lines 51-56): for a pair
`(arg, local_derivative)` of node `n`, compute
`contrib = n.derivative * local_derivative.value` and accumulate it into
`arg.derivative`.  Reading an absent `n.derivative` is a Python `TypeError`,
modelled as `none`. -/
def backwardPush (n : Nat) (g : Graph) (p : Nat × Nat) : Option Graph :=
  match (getNode g n).derivative with
  | none => none
  | some d => some (accumDeriv g p.1 (d * (getNode g p.2).value))

/-- The body of the `for node in reversed(order)` loop of `backward`
(lines 49-56) for a single node. -/
def backwardStep (g : Graph) (n : Nat) : Option Graph :=
  match (getNode g n).args with
  | none => some g
  | some as => (as.zip (ldsOf g n)).foldlM (backwardPush n) g

/-- Model of `Tensor.backward()` (lines 42-56): set the root's derivative to `1.0`,
build the topological order from the root, then walk it in reverse pushing
contributions to the parents. -/
def backward (g : Graph) (root : Nat) : Option Graph :=
  let g1 := setDeriv g root (some 1)
  match build_topo g1 g1.length root ([], ∅) with
  | none => none
  | some (order, _) => order.reverse.foldlM backwardStep g1

/-- Model of `Tensor.clear_derivatives()` (lines 58-64): rebuild the topological order
and set every node's derivative back to `None`. -/
def clear_derivatives (g : Graph) (root : Nat) : Option Graph :=
  match build_topo g g.length root ([], ∅) with
  | none => none
  | some (order, _) => some (order.foldl (fun h n => setDeriv h n none) g)

/-- Reachability from `i` following `args` references (the set of nodes
`build_topo` visits and `backward` differentiates). -/
inductive Reaches (g : Graph) : Nat → Nat → Prop
  | refl (i : Nat) : Reaches g i i
  | step {i j k : Nat} : j ∈ argsOf g i → Reaches g j k → Reaches g i k

/-- The partial derivative of node `i`'s value with respect to node `j`'s
value, as given by the multivariable chain rule on the computation DAG: sum
over all `args` paths from `i` to `j` of the product of the stored
local-derivative values along the path.  Defined with fuel; on well-formed
graphs any fuel `> i` gives the same value. -/
def pathDeriv (g : Graph) (j : Nat) : Nat → Nat → ℚ
  | 0, i => if i = j then 1 else 0
  | fuel + 1, i =>
    (if i = j then 1 else 0) +
    (((argsOf g i).zip (ldsOf g i)).map
      (fun p => (getNode g p.2).value * pathDeriv g j fuel p.1)).sum

/-- Canonical fuel choice for `pathDeriv`: `∂ value(i) / ∂ value(j)`. -/
def pderiv (g : Graph) (j i : Nat) : ℚ := pathDeriv g j (i + 1) i

/-- The total local-derivative weight of the direct edges from `n` into `j`
(a node can appear several times among the args of `n`, e.g. `x * x`). -/
def edgeInto (g : Graph) (n j : Nat) : ℚ :=
  ((((argsOf g n).zip (ldsOf g n)).filter (fun p => p.1 = j)).map
    (fun p => (getNode g p.2).value)).sum

/-- Topologically sorted list over the `args` relation: built by appending
nodes whose args are already present, without duplicates.  This is the shape
of every order produced by `build_topo`. -/
inductive TopoOk (g : Graph) : List Nat → Prop
  | nil : TopoOk g []
  | snoc {l : List Nat} {n : Nat} : TopoOk g l → (∀ a ∈ argsOf g n, a ∈ l) →
      n ∉ l → TopoOk g (l ++ [n])

/-- Two heaps agree on everything except possibly the `derivative` fields:
same length and, at every index, equal `value`, `args`, `local_derivatives`
and `name`.  `backward` and `clear_derivatives` only move heaps within this
relation. -/
def EqExceptDeriv (g h : Graph) : Prop :=
  g.length = h.length ∧
  ∀ i, (getNode g i).value = (getNode h i).value ∧
    (getNode g i).args = (getNode h i).args ∧
    (getNode g i).local_derivatives = (getNode h i).local_derivatives ∧
    (getNode g i).name = (getNode h i).name

/-- The property claimed of the local-derivative entries of an operation
result `r` with operands `a` and `b`: both stored references point to freshly
materialized scalar-holding nodes — never to `a` or `b` themselves — with
absent parents and absent derivative. -/
def freshLocalDerivs (g : Graph) (r a b : Nat) : Prop :=
  ∀ l ∈ ldsOf g r, l ≠ a ∧ l ≠ b ∧ (getNode g l).args = none ∧
    (getNode g l).derivative = none

instance (g : Graph) : Decidable (WF g) := by
  unfold WF; infer_instance

instance (g : Graph) (r a b : Nat) : Decidable (freshLocalDerivs g r a b) := by
  unfold freshLocalDerivs; infer_instance

/-! ### Basic heap lemmas -/

theorem Tensor.ext' {t u : Tensor} (hv : t.value = u.value) (ha : t.args = u.args)
    (hl : t.local_derivatives = u.local_derivatives)
    (hd : t.derivative = u.derivative) (hn : t.name = u.name) : t = u := by
  cases t; cases u; simp_all

theorem getNode_eq_getElem (g : Graph) (i : Nat) (h : i < g.length) :
    getNode g i = g[i] := by
  simp [getNode, List.getD_eq_getElem?_getD, List.getElem?_eq_getElem h]

theorem getNode_append_lt (g l : Graph) (i : Nat) (h : i < g.length) :
    getNode (g ++ l) i = getNode g i := by
  simp [getNode, List.getD_eq_getElem?_getD, List.getElem?_append_left h]

theorem getNode_append_right (g l : Graph) (k : Nat) :
    getNode (g ++ l) (g.length + k) = getNode l k := by
  simp [getNode, List.getD_eq_getElem?_getD, List.getElem?_append_right,
    Nat.le_add_right]

theorem length_setDeriv (g : Graph) (i : Nat) (d : Option ℚ) :
    (setDeriv g i d).length = g.length := by
  simp [setDeriv]

theorem getNode_setDeriv_self (g : Graph) (i : Nat) (d : Option ℚ)
    (h : i < g.length) :
    getNode (setDeriv g i d) i = { getNode g i with derivative := d } := by
  simp [setDeriv, getNode, List.getD_eq_getElem?_getD, List.getElem?_set_self h]

theorem getNode_setDeriv_ne (g : Graph) (i j : Nat) (d : Option ℚ) (h : j ≠ i) :
    getNode (setDeriv g i d) j = getNode g j := by
  simp [setDeriv, getNode, List.getD_eq_getElem?_getD, List.getElem?_set_ne h.symm]

theorem length_accumDeriv (g : Graph) (i : Nat) (c : ℚ) :
    (accumDeriv g i c).length = g.length := by
  unfold accumDeriv
  cases (getNode g i).derivative <;> simp [length_setDeriv]

theorem getNode_accumDeriv_self (g : Graph) (i : Nat) (c : ℚ) (h : i < g.length) :
    getNode (accumDeriv g i c) i =
      { getNode g i with
        derivative := some (((getNode g i).derivative).getD 0 + c) } := by
  unfold accumDeriv
  cases hd : (getNode g i).derivative <;>
    simp [getNode_setDeriv_self g i _ h, hd]

theorem getNode_accumDeriv_ne (g : Graph) (i j : Nat) (c : ℚ) (h : j ≠ i) :
    getNode (accumDeriv g i c) j = getNode g j := by
  unfold accumDeriv
  cases (getNode g i).derivative <;> simp [getNode_setDeriv_ne g i j _ h]

/-! ### `EqExceptDeriv` and structure-invariance lemmas -/

theorem EqExceptDeriv.refl (g : Graph) : EqExceptDeriv g g := by
  exact ⟨rfl, fun i => ⟨rfl, rfl, rfl, rfl⟩⟩

theorem EqExceptDeriv.trans {g h k : Graph} (h1 : EqExceptDeriv g h)
    (h2 : EqExceptDeriv h k) : EqExceptDeriv g k := by
  obtain ⟨hl1, hp1⟩ := h1
  obtain ⟨hl2, hp2⟩ := h2
  refine ⟨hl1.trans hl2, fun i => ?_⟩
  obtain ⟨a1, b1, c1, d1⟩ := hp1 i
  obtain ⟨a2, b2, c2, d2⟩ := hp2 i
  exact ⟨a1.trans a2, b1.trans b2, c1.trans c2, d1.trans d2⟩

theorem eed_setDeriv (g : Graph) (i : Nat) (d : Option ℚ) :
    EqExceptDeriv g (setDeriv g i d) := by
  refine ⟨(length_setDeriv g i d).symm, fun j => ?_⟩
  by_cases h : j = i
  · subst h
    by_cases hj : j < g.length
    · rw [getNode_setDeriv_self g j d hj]
      exact ⟨rfl, rfl, rfl, rfl⟩
    · rw [setDeriv, List.set_eq_of_length_le (Nat.le_of_not_lt hj)]
      exact ⟨rfl, rfl, rfl, rfl⟩
  · rw [getNode_setDeriv_ne g i j d h]
    exact ⟨rfl, rfl, rfl, rfl⟩

theorem eed_accumDeriv (g : Graph) (i : Nat) (c : ℚ) :
    EqExceptDeriv g (accumDeriv g i c) := by
  unfold accumDeriv
  cases (getNode g i).derivative <;> exact eed_setDeriv g i _

theorem EqExceptDeriv.argsOf {g h : Graph} (e : EqExceptDeriv g h) (i : Nat) :
    argsOf g i = argsOf h i := by
  unfold TensorAD.argsOf
  rw [(e.2 i).2.1]

theorem EqExceptDeriv.ldsOf {g h : Graph} (e : EqExceptDeriv g h) (i : Nat) :
    ldsOf g i = ldsOf h i := by
  unfold TensorAD.ldsOf
  rw [(e.2 i).2.2.1]

theorem EqExceptDeriv.value {g h : Graph} (e : EqExceptDeriv g h) (i : Nat) :
    (getNode g i).value = (getNode h i).value := (e.2 i).1

theorem EqExceptDeriv.wf {g h : Graph} (e : EqExceptDeriv g h) (hg : WF g) :
    WF h := by
  intro i hi
  rw [← e.1] at hi
  obtain ⟨h1, h2, h3⟩ := hg i hi
  rw [← e.argsOf i, ← e.ldsOf i, ← e.1]
  exact ⟨h1, h2, h3⟩

theorem EqExceptDeriv.reaches {g h : Graph} (e : EqExceptDeriv g h) {i j : Nat}
    (hr : Reaches g i j) : Reaches h i j := by
  induction hr with
  | refl i => exact Reaches.refl i
  | step ha _ ih => exact Reaches.step (by rw [← e.argsOf]; exact ha) ih

theorem EqExceptDeriv.topoOk {g h : Graph} (e : EqExceptDeriv g h) {l : List Nat}
    (ht : TopoOk g l) : TopoOk h l := by
  induction ht with
  | nil => exact TopoOk.nil
  | snoc _ hcl hnm ih =>
      exact TopoOk.snoc ih (fun a ha => hcl a (by rw [e.argsOf]; exact ha)) hnm

theorem EqExceptDeriv.pathDeriv {g h : Graph} (e : EqExceptDeriv g h) (j : Nat) :
    ∀ fuel i, pathDeriv g j fuel i = pathDeriv h j fuel i := by
  intro fuel
  induction fuel with
  | zero => intro i; rfl
  | succ fuel ih =>
      intro i
      simp only [TensorAD.pathDeriv]
      rw [← e.argsOf i, ← e.ldsOf i]
      congr 1
      apply congrArg
      apply List.map_congr_left
      intro p _
      rw [ih p.1, e.value p.2]

theorem EqExceptDeriv.pderiv {g h : Graph} (e : EqExceptDeriv g h) (j i : Nat) :
    pderiv g j i = pderiv h j i := e.pathDeriv j (i + 1) i

theorem EqExceptDeriv.edgeInto {g h : Graph} (e : EqExceptDeriv g h) (n j : Nat) :
    edgeInto g n j = edgeInto h n j := by
  unfold TensorAD.edgeInto
  rw [← e.argsOf n, ← e.ldsOf n]
  apply congrArg
  apply List.map_congr_left
  intro p _
  exact e.value p.2

/-! ### Reachability and topological-order lemmas -/

theorem getNode_of_ge (g : Graph) (i : Nat) (h : g.length ≤ i) :
    getNode g i = defTensor := List.getD_eq_default _ _ h

theorem argsOf_of_ge (g : Graph) (i : Nat) (h : g.length ≤ i) :
    argsOf g i = [] := by
  unfold argsOf
  rw [getNode_of_ge g i h]
  rfl

theorem reaches_le {g : Graph} (hWF : WF g) : ∀ {i j : Nat}, Reaches g i j →
    i < g.length → j ≤ i := by
  intro i j hr
  induction hr with
  | refl i => exact fun _ => le_refl i
  | step ha _ ih =>
      intro hi
      have hj := (hWF _ hi).1 _ ha
      exact le_trans (ih (lt_trans hj hi)) (le_of_lt hj)

theorem reaches_lt_length {g : Graph} (hWF : WF g) {i j : Nat}
    (hr : Reaches g i j) (hi : i < g.length) : j < g.length :=
  lt_of_le_of_lt (reaches_le hWF hr hi) hi

/-- Every node reachable from `i` other than `i` itself is an arg of some
node reachable from `i`. -/
theorem reaches_dependent {g : Graph} (hWF : WF g) : ∀ {i j : Nat},
    Reaches g i j → i < g.length → j ≠ i →
    ∃ m, Reaches g i m ∧ j ∈ argsOf g m := by
  intro i j hr
  induction hr with
  | refl i => exact fun _ hne => absurd rfl hne
  | @step i a k ha _ ih =>
      intro hi _
      by_cases hk : k = a
      · exact ⟨i, Reaches.refl i, hk ▸ ha⟩
      · have hai : a < i := (hWF _ hi).1 _ ha
        obtain ⟨m, hm1, hm2⟩ := ih (lt_trans hai hi) hk
        exact ⟨m, Reaches.step ha hm1, hm2⟩

theorem TopoOk.nodup {g : Graph} {l : List Nat} (h : TopoOk g l) : l.Nodup := by
  induction h with
  | nil => exact List.nodup_nil
  | snoc _ _ hnm ih => simp [List.nodup_append, ih, hnm]

theorem TopoOk.closed {g : Graph} {l : List Nat} (h : TopoOk g l) :
    ∀ n ∈ l, ∀ a ∈ argsOf g n, a ∈ l := by
  induction h with
  | nil => simp
  | @snoc l' m _ hcl _ ih =>
      intro n hn a ha
      rcases List.mem_append.1 hn with hn' | hn'
      · exact List.mem_append_left _ (ih n hn' a ha)
      · have : n = m := by simpa using hn'
        subst this
        exact List.mem_append_left _ (hcl a ha)

theorem TopoOk.reaches_mem {g : Graph} {l : List Nat} (h : TopoOk g l) :
    ∀ {i j : Nat}, i ∈ l → Reaches g i j → j ∈ l := by
  intro i j hi hr
  induction hr with
  | refl i => exact hi
  | step ha _ ih => exact ih (h.closed _ hi _ ha)

/-- In a `TopoOk` list, every arg of a node occurs strictly before it. -/
theorem TopoOk.before {g : Graph} {l : List Nat} (h : TopoOk g l) :
    ∀ p n q, l = p ++ n :: q → ∀ a ∈ argsOf g n, a ∈ p := by
  induction h with
  | nil =>
      intro p n q he
      exact absurd he.symm (List.append_ne_nil_of_right_ne_nil p (by simp))
  | @snoc l' m _ hcl _ ih =>
      intro p n q he a ha
      rcases q.eq_nil_or_concat with rfl | ⟨q', e, rfl⟩
      · have h2 : l' = p ∧ [m] = [n] := by
          apply List.append_inj' he
          rfl
        obtain ⟨rfl, h3⟩ := h2
        have : m = n := by simpa using h3
        subst this
        exact hcl a ha
      · have he' : l' ++ [m] = (p ++ n :: q') ++ [e] := by
          rw [he]
          simp
        have h2 : l' = p ++ n :: q' ∧ [m] = [e] := by
          apply List.append_inj' he'
          rfl
        exact ih p n q' h2.1 a ha

/-- Reverse form: in the reverse of a `TopoOk` list, every arg of a node
occurs strictly after it. -/
theorem TopoOk.rev_after {g : Graph} {l : List Nat} (h : TopoOk g l) :
    ∀ p n q, l.reverse = p ++ n :: q → ∀ a ∈ argsOf g n, a ∈ q := by
  intro p n q he a ha
  have hl : l = q.reverse ++ n :: p.reverse := by
    have := congrArg List.reverse he
    simpa using this
  have := h.before q.reverse n p.reverse hl a ha
  simpa using this

/-! ### List-sum helper lemmas -/

theorem lsum_map_add {α : Type} (l : List α) (f h : α → ℚ) :
    (l.map fun x => f x + h x).sum = (l.map f).sum + (l.map h).sum := by
  induction l with
  | nil => simp
  | cons x t ih => simp [ih]; ring

theorem lsum_map_ite (l : List (Nat × Nat)) (j : Nat) (f : Nat × Nat → ℚ) :
    (l.map fun p => if p.1 = j then f p else 0).sum =
      ((l.filter fun p => p.1 = j).map f).sum := by
  induction l with
  | nil => simp
  | cons p t ih =>
      by_cases hp : p.1 = j <;> simp [List.filter_cons, hp, ih]

theorem lsum_finset_sum_comm {α β : Type} (l : List α) (s : Finset β)
    (F : α → β → ℚ) :
    (l.map fun p => ∑ n ∈ s, F p n).sum = ∑ n ∈ s, (l.map fun p => F p n).sum := by
  induction l with
  | nil => simp
  | cons x t ih => simp [ih, Finset.sum_add_distrib]

/-! ### `pderiv` lemmas -/

theorem pathDeriv_fuel {g : Graph} (hWF : WF g) (j : Nat) :
    ∀ i f1 f2, i < f1 → i < f2 → pathDeriv g j f1 i = pathDeriv g j f2 i := by
  intro i
  induction i using Nat.strong_induction_on with
  | _ i ih =>
      intro f1 f2 h1 h2
      match f1, f2 with
      | fuel1 + 1, fuel2 + 1 =>
        simp only [pathDeriv]
        congr 1
        apply congrArg
        apply List.map_congr_left
        intro p hp
        by_cases hi : i < g.length
        · have hp1 : p.1 ∈ argsOf g i := (List.of_mem_zip hp).1
          have hlt : p.1 < i := (hWF i hi).1 _ hp1
          rw [ih p.1 hlt fuel1 fuel2 (by omega) (by omega)]
        · rw [argsOf_of_ge g i (Nat.le_of_not_lt hi)] at hp
          simp at hp

theorem pderiv_unfold {g : Graph} (hWF : WF g) (j i : Nat) :
    pderiv g j i = (if i = j then 1 else 0) +
      (((argsOf g i).zip (ldsOf g i)).map
        (fun p => (getNode g p.2).value * pderiv g j p.1)).sum := by
  have h0 : pderiv g j i = (if i = j then 1 else 0) +
      (((argsOf g i).zip (ldsOf g i)).map
        (fun p => (getNode g p.2).value * pathDeriv g j i p.1)).sum := by
    unfold pderiv
    simp only [pathDeriv]
  rw [h0]
  congr 1
  apply congrArg
  apply List.map_congr_left
  intro p hp
  by_cases hi : i < g.length
  · have hp1 : p.1 ∈ argsOf g i := (List.of_mem_zip hp).1
    have hlt : p.1 < i := (hWF i hi).1 _ hp1
    rw [pathDeriv_fuel hWF j p.1 i (p.1 + 1) hlt (Nat.lt_succ_self _)]
    rfl
  · rw [argsOf_of_ge g i (Nat.le_of_not_lt hi)] at hp
    simp at hp

theorem pderiv_zero_of_not_reaches {g : Graph} (hWF : WF g) :
    ∀ i j, ¬ Reaches g i j → pderiv g j i = 0 := by
  intro i
  induction i using Nat.strong_induction_on with
  | _ i ih =>
      intro j hnr
      rw [pderiv_unfold hWF]
      have hij : i ≠ j := fun h => hnr (h ▸ Reaches.refl i)
      rw [if_neg hij]
      have hz : ∀ x ∈ ((argsOf g i).zip (ldsOf g i)).map
          (fun p => (getNode g p.2).value * pderiv g j p.1), x = 0 := by
        intro x hx
        obtain ⟨p, hp, rfl⟩ := List.mem_map.1 hx
        by_cases hi : i < g.length
        · have hp1 : p.1 ∈ argsOf g i := (List.of_mem_zip hp).1
          have hlt : p.1 < i := (hWF i hi).1 _ hp1
          have : ¬ Reaches g p.1 j := fun hr => hnr (Reaches.step hp1 hr)
          rw [ih p.1 hlt j this, mul_zero]
        · rw [argsOf_of_ge g i (Nat.le_of_not_lt hi)] at hp
          simp at hp
      rw [List.sum_eq_zero hz, add_zero]

/-- Decomposition of the chain-rule derivative by the last edge of each path:
the derivative of `i` with respect to `j` is the self term plus, over all
nodes `n`, the derivative of `i` with respect to `n` times the direct edge
weight from `n` into `j`.  This is precisely the quantity reverse-mode
accumulation computes. -/
theorem pderiv_lastEdge {g : Graph} (hWF : WF g) :
    ∀ i, i < g.length → ∀ j, pderiv g j i = (if i = j then 1 else 0) +
      ∑ n ∈ Finset.range g.length, pderiv g n i * edgeInto g n j := by
  intro i
  induction i using Nat.strong_induction_on with
  | _ i ih =>
      intro hi j
      rw [pderiv_unfold hWF]
      congr 1
      have hstep : ∀ p ∈ (argsOf g i).zip (ldsOf g i),
          (getNode g p.2).value * pderiv g j p.1 =
          (if p.1 = j then (getNode g p.2).value else 0) +
          ∑ n ∈ Finset.range g.length,
            (getNode g p.2).value * pderiv g n p.1 * edgeInto g n j := by
        intro p hp
        have hp1 : p.1 ∈ argsOf g i := (List.of_mem_zip hp).1
        have hlt : p.1 < i := (hWF i hi).1 _ hp1
        rw [ih p.1 hlt (lt_trans hlt hi) j]
        rw [mul_add, Finset.mul_sum]
        congr 1
        · by_cases h : p.1 = j <;> simp [h]
        · apply Finset.sum_congr rfl
          intro n _
          ring
      rw [List.map_congr_left hstep, lsum_map_add]
      have hmid : ((List.zip (argsOf g i) (ldsOf g i)).map
          fun p => if p.1 = j then (getNode g p.2).value else 0).sum =
          edgeInto g i j := by
        rw [lsum_map_ite]
        rfl
      rw [hmid, lsum_finset_sum_comm]
      have hthird : ∀ n ∈ Finset.range g.length,
          ((List.zip (argsOf g i) (ldsOf g i)).map
            fun p => (getNode g p.2).value * pderiv g n p.1 * edgeInto g n j).sum =
          (pderiv g n i - (if i = n then 1 else 0)) * edgeInto g n j := by
        intro n _
        rw [List.sum_map_mul_right]
        rw [pderiv_unfold hWF n i]
        ring
      rw [Finset.sum_congr rfl hthird]
      have hsplit : ∀ n ∈ Finset.range g.length,
          (pderiv g n i - (if i = n then 1 else 0)) * edgeInto g n j =
          pderiv g n i * edgeInto g n j -
            (if i = n then edgeInto g n j else 0) := by
        intro n _
        by_cases h : i = n <;> simp [h] <;> ring
      rw [Finset.sum_congr rfl hsplit, Finset.sum_sub_distrib]
      rw [Finset.sum_ite_eq (Finset.range g.length) i (fun n => edgeInto g n j)]
      rw [if_pos (Finset.mem_range.2 hi)]
      ring

/-! ### `build_topo` master specification -/

theorem build_topo_succ (g : Graph) (fuel i : Nat) (s : List Nat × Finset Nat) :
    build_topo g (fuel + 1) i s =
      if i ∈ s.2 then some s
      else
        match (getNode g i).args with
        | none => some (s.1 ++ [i], insert i s.2)
        | some as =>
          match build_topo_args g fuel as (s.1, insert i s.2) with
          | none => none
          | some t => some (t.1 ++ [i], t.2) := rfl

theorem build_topo_args_nil (g : Graph) (fuel : Nat) (s : List Nat × Finset Nat) :
    build_topo_args g fuel [] s = some s := rfl

theorem build_topo_args_cons (g : Graph) (fuel a : Nat) (rest : List Nat)
    (s : List Nat × Finset Nat) :
    build_topo_args g fuel (a :: rest) s =
      match build_topo g fuel a s with
      | none => none
      | some t => build_topo_args g fuel rest t := by
  unfold build_topo_args
  rw [List.foldlM_cons]
  cases build_topo g fuel a s <;> rfl

/-- The specification of a single recursive `build_topo` call, used as the
induction hypothesis on fuel. -/
def BTSpec (g : Graph) (fuel : Nat) : Prop :=
  ∀ i s, i < g.length → i < fuel →
    TopoOk g s.1 → (∀ j ∈ s.1, j ∈ s.2) →
    (∀ j ∈ s.2, j ∉ s.1 → i < j) →
    ∃ t, build_topo g fuel i s = some t ∧
      TopoOk g t.1 ∧ (∀ j ∈ t.1, j ∈ t.2) ∧
      (∃ ext, t.1 = s.1 ++ ext) ∧
      (∀ j ∈ s.2, j ∈ t.2) ∧
      (∀ j, (j ∈ t.2 ∧ j ∉ t.1) ↔ (j ∈ s.2 ∧ j ∉ s.1)) ∧
      i ∈ t.1 ∧
      (∀ j ∈ t.1, j ∈ s.1 ∨ (Reaches g i j ∧ j ≤ i)) ∧
      (i ∈ s.2 ∨ ∃ ext2, t.1 = s.1 ++ ext2 ++ [i])

theorem build_topo_args_spec (g : Graph) (hWF : WF g) (fuel : Nat)
    (IH : BTSpec g fuel) :
    ∀ (l : List Nat) (i : Nat) (s : List Nat × Finset Nat),
      (∀ a ∈ l, a < i) → i < g.length → i ≤ fuel →
      TopoOk g s.1 → (∀ j ∈ s.1, j ∈ s.2) →
      (∀ j ∈ s.2, j ∉ s.1 → i ≤ j) →
      ∃ t, build_topo_args g fuel l s = some t ∧
        TopoOk g t.1 ∧ (∀ j ∈ t.1, j ∈ t.2) ∧
        (∃ ext, t.1 = s.1 ++ ext) ∧
        (∀ j ∈ s.2, j ∈ t.2) ∧
        (∀ j, (j ∈ t.2 ∧ j ∉ t.1) ↔ (j ∈ s.2 ∧ j ∉ s.1)) ∧
        (∀ a ∈ l, a ∈ t.1) ∧
        (∀ j ∈ t.1, j ∈ s.1 ∨ ∃ a ∈ l, Reaches g a j ∧ j ≤ a) := by
  intro l
  induction l with
  | nil =>
      intro i s _ _ _ hTopo hsub _
      exact ⟨s, build_topo_args_nil g fuel s, hTopo, hsub, ⟨[], by simp⟩,
        fun j hj => hj, fun j => Iff.rfl, by simp, fun j hj => Or.inl hj⟩
  | cons a rest ih =>
      intro i s hlt hi hif hTopo hsub hunf
      have ha : a < i := hlt a (by simp)
      obtain ⟨t1, heq1, hT1, hS1, ⟨e1, he1⟩, hM1, hI1, hMemA1, hNew1, _⟩ :=
        IH a s (lt_trans ha hi) (lt_of_lt_of_le ha hif) hTopo hsub
          (fun j hj hjn => lt_of_lt_of_le ha (hunf j hj hjn))
      obtain ⟨t2, heq2, hT2, hS2, ⟨e2, he2⟩, hM2, hI2, hMem2, hNew2⟩ :=
        ih i t1 (fun a' ha' => hlt a' (by simp [ha'])) hi hif hT1 hS1
          (fun j hj hjn => hunf j ((hI1 j).1 ⟨hj, hjn⟩).1 ((hI1 j).1 ⟨hj, hjn⟩).2)
      refine ⟨t2, ?_, hT2, hS2, ⟨e1 ++ e2, by rw [he2, he1, List.append_assoc]⟩,
        fun j hj => hM2 j (hM1 j hj), fun j => (hI2 j).trans (hI1 j), ?_, ?_⟩
      · rw [build_topo_args_cons, heq1]
        exact heq2
      · intro a' ha'
        rcases List.mem_cons.1 ha' with rfl | ha'
        · rw [he2]
          exact List.mem_append_left _ hMemA1
        · exact hMem2 a' ha'
      · intro j hj
        rcases hNew2 j hj with hj1 | ⟨a', ha', hr, hle⟩
        · rcases hNew1 j hj1 with hj0 | ⟨hr, hle⟩
          · exact Or.inl hj0
          · exact Or.inr ⟨a, by simp, hr, hle⟩
        · exact Or.inr ⟨a', by simp [ha'], hr, hle⟩

theorem build_topo_spec (g : Graph) (hWF : WF g) : ∀ fuel, BTSpec g fuel := by
  intro fuel
  induction fuel with
  | zero => intro i s _ hif; omega
  | succ fuel IH =>
      intro i s hi hif hTopo hsub hunf
      rw [build_topo_succ]
      by_cases hvis : i ∈ s.2
      · have hordmem : i ∈ s.1 := by
          by_contra hno
          exact absurd (hunf i hvis hno) (lt_irrefl i)
        exact ⟨s, by rw [if_pos hvis], hTopo, hsub, ⟨[], by simp⟩,
          fun j hj => hj, fun j => Iff.rfl, hordmem,
          fun j hj => Or.inl hj, Or.inl hvis⟩
      · rw [if_neg hvis]
        have hins : i ∉ s.1 := fun h => hvis (hsub i h)
        cases hargs : (getNode g i).args with
        | none =>
            have hae : argsOf g i = [] := by unfold argsOf; rw [hargs]; rfl
            refine ⟨(s.1 ++ [i], insert i s.2), rfl,
              TopoOk.snoc hTopo (by rw [hae]; simp) hins, ?_, ⟨[i], rfl⟩,
              fun j hj => Finset.mem_insert_of_mem hj, ?_, by simp, ?_,
              Or.inr ⟨[], by simp⟩⟩
            · intro j hj
              rcases List.mem_append.1 hj with hj | hj
              · exact Finset.mem_insert_of_mem (hsub j hj)
              · simp at hj
                subst hj
                exact Finset.mem_insert_self _ _
            · intro j
              constructor
              · rintro ⟨hj2, hj1⟩
                rcases Finset.mem_insert.1 hj2 with rfl | hj2
                · exact absurd (by simp : j ∈ s.1 ++ [j]) hj1
                · exact ⟨hj2, fun h => hj1 (List.mem_append_left _ h)⟩
              · rintro ⟨hj2, hj1⟩
                have hne : j ≠ i := fun h => hvis (h ▸ hj2)
                exact ⟨Finset.mem_insert_of_mem hj2, by simp [hj1, hne]⟩
            · intro j hj
              rcases List.mem_append.1 hj with hj | hj
              · exact Or.inl hj
              · simp at hj
                subst hj
                exact Or.inr ⟨Reaches.refl j, le_refl j⟩
        | some as =>
            have hae : argsOf g i = as := by unfold argsOf; rw [hargs]; rfl
            have has : ∀ a ∈ as, a < i := by
              have := (hWF i hi).1
              rw [hae] at this
              exact this
            obtain ⟨t1, heq1, hT1, hS1, ⟨e1, he1⟩, hM1, hI1, hMem1, hNew1⟩ :=
              build_topo_args_spec g hWF fuel IH as i (s.1, insert i s.2) has hi
                (Nat.lt_succ_iff.1 hif) hTopo
                (fun j hj => Finset.mem_insert_of_mem (hsub j hj))
                (by
                  intro j hj hjn
                  rcases Finset.mem_insert.1 hj with rfl | hj
                  · exact le_refl j
                  · exact le_of_lt (hunf j hj hjn))
            have hit1 : i ∉ t1.1 := by
              intro hmem
              rcases hNew1 i hmem with h0 | ⟨a, ha, _, hle⟩
              · exact hins h0
              · exact absurd (lt_of_le_of_lt hle (has a ha)) (lt_irrefl i)
            refine ⟨(t1.1 ++ [i], t1.2), ?_,
              TopoOk.snoc hT1 (by rw [hae]; exact hMem1) hit1, ?_,
              ⟨e1 ++ [i], by rw [he1]; simp⟩,
              fun j hj => hM1 j (Finset.mem_insert_of_mem hj), ?_, by simp, ?_,
              Or.inr ⟨e1, by rw [he1]⟩⟩
            · exact (by rw [heq1] :
                (match build_topo_args g fuel as (s.1, insert i s.2) with
                  | none => none
                  | some t => some (t.1 ++ [i], t.2)) =
                some (t1.1 ++ [i], t1.2))
            · intro j hj
              rcases List.mem_append.1 hj with hj | hj
              · exact hS1 j hj
              · simp at hj
                subst hj
                exact hM1 _ (Finset.mem_insert_self _ _)
            · intro j
              constructor
              · rintro ⟨hj2, hj1⟩
                have hj1' : j ∉ t1.1 := fun h => hj1 (List.mem_append_left _ h)
                have hne : j ≠ i := by
                  intro h
                  exact hj1 (by simp [h])
                obtain ⟨hj2', hj1''⟩ := (hI1 j).1 ⟨hj2, hj1'⟩
                rcases Finset.mem_insert.1 hj2' with h | h
                · exact absurd h hne
                · exact ⟨h, hj1''⟩
              · rintro ⟨hj2, hj1⟩
                have hne : j ≠ i := fun h => hvis (h ▸ hj2)
                obtain ⟨hja, hjb⟩ := (hI1 j).2 ⟨Finset.mem_insert_of_mem hj2, hj1⟩
                refine ⟨hja, ?_⟩
                simp [hjb, hne]
            · intro j hj
              rcases List.mem_append.1 hj with hj | hj
              · rcases hNew1 j hj with h0 | ⟨a, ha, hr, hle⟩
                · exact Or.inl h0
                · refine Or.inr ⟨Reaches.step (hae ▸ ha) hr, ?_⟩
                  exact le_of_lt (lt_of_le_of_lt hle (has a ha))
              · simp at hj
                subst hj
                exact Or.inr ⟨Reaches.refl j, le_refl j⟩

/-- Top-level `build_topo` call as made by `backward` and `clear_derivatives`:
starting from an empty order and empty visited set. -/
theorem build_topo_root {g : Graph} (hWF : WF g) {root : Nat}
    (hroot : root < g.length) :
    ∃ order visited,
      build_topo g g.length root ([], ∅) = some (order, visited) ∧
      TopoOk g order ∧
      (∀ j, j ∈ order ↔ Reaches g root j) ∧
      (∀ j ∈ order, j ≤ root) ∧
      (∃ pre, order = pre ++ [root]) := by
  obtain ⟨t, heq, hT, _, _, _, _, hRoot, hNew, hLast⟩ :=
    build_topo_spec g hWF g.length root ([], ∅) hroot hroot TopoOk.nil
      (by simp) (by simp)
  refine ⟨t.1, t.2, by rw [heq], hT, ?_, ?_, ?_⟩
  · intro j
    constructor
    · intro hj
      rcases hNew j hj with h | ⟨hr, _⟩
      · simp at h
      · exact hr
    · intro hr
      exact hT.reaches_mem hRoot hr
  · intro j hj
    rcases hNew j hj with h | ⟨_, hle⟩
    · simp at h
    · exact hle
  · rcases hLast with h | ⟨ext2, he⟩
    · simp at h
    · exact ⟨ext2, by simpa using he⟩

/-! ### More structure lemmas for the backward pass -/

theorem EqExceptDeriv.symm {g h : Graph} (e : EqExceptDeriv g h) :
    EqExceptDeriv h g := by
  refine ⟨e.1.symm, fun i => ?_⟩
  obtain ⟨a, b, c, d⟩ := e.2 i
  exact ⟨a.symm, b.symm, c.symm, d.symm⟩

theorem reaches_snoc {g : Graph} {i j a : Nat} (hr : Reaches g i j)
    (ha : a ∈ argsOf g j) : Reaches g i a := by
  induction hr with
  | refl i => exact Reaches.step ha (Reaches.refl a)
  | step hb _ ih => exact Reaches.step hb (ih ha)

theorem edgeInto_zero_of_not_mem {g : Graph} {m j : Nat}
    (h : j ∉ argsOf g m) : edgeInto g m j = 0 := by
  unfold edgeInto
  have : ((argsOf g m).zip (ldsOf g m)).filter (fun p => p.1 = j) = [] := by
    rw [List.filter_eq_nil_iff]
    intro p hp
    simp only [decide_eq_true_eq]
    intro hpj
    exact h (hpj ▸ (List.of_mem_zip hp).1)
  rw [this]
  rfl

theorem edgeInto_self_zero {g : Graph} (hWF : WF g) {n : Nat}
    (hn : n < g.length) : edgeInto g n n = 0 := by
  apply edgeInto_zero_of_not_mem
  intro hmem
  exact absurd ((hWF n hn).1 n hmem) (lt_irrefl n)

theorem mem_args_exists_pair {g : Graph} (hWF : WF g) {n j : Nat}
    (hn : n < g.length) (hj : j ∈ argsOf g n) :
    ∃ p ∈ (argsOf g n).zip (ldsOf g n), p.1 = j := by
  have hlen : (argsOf g n).length ≤ (ldsOf g n).length :=
    le_of_eq (hWF n hn).2.2
  have hmap : ((argsOf g n).zip (ldsOf g n)).map Prod.fst = argsOf g n :=
    List.map_fst_zip _ _ hlen
  rw [← hmap] at hj
  obtain ⟨p, hp, hpj⟩ := List.mem_map.1 hj
  exact ⟨p, hp, hpj⟩

/-- Conversion of the accumulated list sum into the full `Finset.range` sum:
nodes outside the reachable set contribute zero. -/
theorem cSum_full {g : Graph} (hWF : WF g) {root : Nat} (hroot : root < g.length)
    {rev : List Nat} (hN : rev.Nodup) (hmem : ∀ j, j ∈ rev ↔ Reaches g root j)
    (j : Nat) :
    (rev.map (fun m => pderiv g m root * edgeInto g m j)).sum =
      ∑ m ∈ Finset.range g.length, pderiv g m root * edgeInto g m j := by
  rw [← List.sum_toFinset _ hN]
  apply Finset.sum_subset
  · intro m hm
    rw [List.mem_toFinset] at hm
    exact Finset.mem_range.2 (reaches_lt_length hWF ((hmem m).1 hm) hroot)
  · intro m _ hnm
    rw [List.mem_toFinset] at hnm
    have : ¬ Reaches g root m := fun hr => hnm ((hmem m).2 hr)
    rw [pderiv_zero_of_not_reaches hWF root m this, zero_mul]

/-- The final accumulated value at any reachable node equals the chain-rule
derivative of the root with respect to it. -/
theorem seed_cSum_eq_pderiv {g : Graph} (hWF : WF g) {root : Nat}
    (hroot : root < g.length) {rev : List Nat} (hN : rev.Nodup)
    (hmem : ∀ j, j ∈ rev ↔ Reaches g root j) (j : Nat) :
    (if j = root then (1:ℚ) else 0) +
      (rev.map (fun m => pderiv g m root * edgeInto g m j)).sum =
      pderiv g j root := by
  rw [cSum_full hWF hroot hN hmem j, pderiv_lastEdge hWF root hroot j]
  congr 1
  exact if_congr eq_comm rfl rfl

/-- Specification of the inner loop of `backward` for a single node `n` with
pairs `ps` of (arg, local-derivative) references: accumulates
`d * local.value` into each arg's derivative. -/
theorem push_fold {g : Graph} (n : Nat) (d : ℚ) :
    ∀ (ps : List (Nat × Nat)) (h : Graph), EqExceptDeriv g h →
      (∀ p ∈ ps, p.1 ≠ n) →
      (getNode h n).derivative = some d →
      (∀ p ∈ ps, p.1 < g.length) →
      ∃ h2, ps.foldlM (backwardPush n) h = some h2 ∧
        EqExceptDeriv h h2 ∧
        (∀ j, (∀ p ∈ ps, p.1 ≠ j) → getNode h2 j = getNode h j) ∧
        (∀ j, (∃ p ∈ ps, p.1 = j) →
          (getNode h2 j).derivative =
            some (((getNode h j).derivative).getD 0 +
              ((ps.filter (fun p => p.1 = j)).map
                (fun p => d * (getNode g p.2).value)).sum)) := by
  intro ps
  induction ps with
  | nil =>
      intro h e _ _ _
      exact ⟨h, rfl, EqExceptDeriv.refl h, fun j _ => rfl, by simp⟩
  | cons p ps' ih =>
      intro h e hne hd hbnd
      have hp1n : p.1 ≠ n := hne p (by simp)
      have hp1len : p.1 < h.length := by
        rw [← e.1]
        exact hbnd p (by simp)
      set c : ℚ := d * (getNode h p.2).value with hc
      set h1 : Graph := accumDeriv h p.1 c with hh1
      have e1 : EqExceptDeriv h h1 := eed_accumDeriv h p.1 c
      have hd1 : (getNode h1 n).derivative = some d := by
        rw [hh1, getNode_accumDeriv_ne h p.1 n c (Ne.symm hp1n)]
        exact hd
      obtain ⟨h2, heq2, e2, hUn2, hF2⟩ := ih h1 (e.trans e1)
        (fun q hq => hne q (by simp [hq])) hd1 (fun q hq => hbnd q (by simp [hq]))
      have hstep : backwardPush n h p = some h1 := by
        unfold backwardPush
        rw [hd]
      refine ⟨h2, ?_, e1.trans e2, ?_, ?_⟩
      · rw [List.foldlM_cons, hstep]
        exact heq2
      · intro j hj
        have hj1 : p.1 ≠ j := hj p (by simp)
        rw [hUn2 j (fun q hq => hj q (by simp [hq]))]
        rw [hh1, getNode_accumDeriv_ne h p.1 j c (Ne.symm hj1)]
      · intro j hj
        have hval : (getNode h p.2).value = (getNode g p.2).value :=
          (e.value p.2).symm
        by_cases hpj : p.1 = j
        · subst hpj
          have hself : getNode h1 p.1 =
              { getNode h p.1 with
                derivative := some (((getNode h p.1).derivative).getD 0 + c) } := by
            rw [hh1]
            exact getNode_accumDeriv_self h p.1 c hp1len
          by_cases hex : ∃ q ∈ ps', q.1 = p.1
          · rw [hF2 p.1 hex, hself]
            simp only [Option.getD_some]
            rw [List.filter_cons, if_pos (by simp)]
            simp only [List.map_cons, List.sum_cons]
            rw [hc, hval]
            ring_nf
          · push_neg at hex
            rw [hUn2 p.1 (fun q hq h => hex q hq h), hself]
            rw [List.filter_cons, if_pos (by simp)]
            have hnil : ps'.filter (fun q => q.1 = p.1) = [] := by
              rw [List.filter_eq_nil_iff]
              intro q hq
              simp only [decide_eq_true_eq]
              exact hex q hq
            rw [hnil]
            simp [hc, hval]
        · have hj' : ∃ q ∈ ps', q.1 = j := by
            rcases hj with ⟨q, hq, hqj⟩
            rcases List.mem_cons.1 hq with rfl | hq
            · exact absurd hqj hpj
            · exact ⟨q, hq, hqj⟩
          rw [hF2 j hj']
          rw [hh1, getNode_accumDeriv_ne h p.1 j c (Ne.symm hpj)]
          rw [List.filter_cons, if_neg (by simp [hpj])]

/-! ### The reverse-order accumulation invariant -/

/-- Invariant of the `for node in reversed(order)` loop: after processing the
prefix `P` of the reversed order `rev`, the heap `h` differs from the input
heap `g` only on `derivative` fields of nodes in `rev`; a node holds `none`
until its first contribution arrives and thereafter the seed (1 for the root)
plus the sum of the contributions `pderiv(m) * edge(m → j)` over processed
nodes `m`. -/
def BInv (g : Graph) (root : Nat) (rev P : List Nat) (h : Graph) : Prop :=
  EqExceptDeriv g h ∧
  (∀ j, j ∉ rev → getNode h j = getNode g j) ∧
  (∀ j ∈ rev, (getNode h j).derivative =
    if j = root ∨ ∃ m ∈ P, j ∈ argsOf g m
    then some ((if j = root then (1:ℚ) else 0) +
      (P.map (fun m => pderiv g m root * edgeInto g m j)).sum)
    else none)

/-- When the loop reaches node `n`, `n`'s own derivative has already been
written: either `n` is the root, or some already-processed node has `n` among
its args. -/
theorem cond_at_head {g : Graph} (hWF : WF g) {root : Nat}
    (hroot : root < g.length) {rev P R : List Nat} {n : Nat} (hN : rev.Nodup)
    (hmem : ∀ j, j ∈ rev ↔ Reaches g root j)
    (hafter : ∀ p m q, rev = p ++ m :: q → ∀ a ∈ argsOf g m, a ∈ q)
    (hsplit : rev = P ++ n :: R) :
    n = root ∨ ∃ m ∈ P, n ∈ argsOf g m := by
  by_cases hnr : n = root
  · exact Or.inl hnr
  · right
    have hnrev : n ∈ rev := by rw [hsplit]; simp
    have hre : Reaches g root n := (hmem n).1 hnrev
    have hnlen : n < g.length := reaches_lt_length hWF hre hroot
    obtain ⟨m, hrm, hnm⟩ := reaches_dependent hWF hre hroot hnr
    have hmrev : m ∈ rev := (hmem m).2 hrm
    have hnR : n ∉ R := by
      have h2 := hsplit ▸ hN
      exact (List.nodup_cons.1 h2.of_append_right).1
    rw [hsplit] at hmrev
    rcases List.mem_append.1 hmrev with hmP | hmNR
    · exact ⟨m, hmP, hnm⟩
    · rcases List.mem_cons.1 hmNR with rfl | hmR
      · exact absurd ((hWF m hnlen).1 m hnm) (lt_irrefl m)
      · obtain ⟨R1, R2, hR⟩ := List.append_of_mem hmR
        have hsplit2 : rev = (P ++ n :: R1) ++ m :: R2 := by
          rw [hsplit, hR]
          simp
        have hin := hafter _ _ _ hsplit2 n hnm
        exact absurd (by rw [hR]; simp [hin] : n ∈ R) hnR

/-- By the time the loop reaches node `n`, every node with an edge into `n`
has already been processed, so the partial contribution sum over the processed
prefix already equals the sum over the whole order. -/
theorem cSum_early {g : Graph} (hWF : WF g) {root : Nat}
    (hroot : root < g.length) {rev P R : List Nat} {n : Nat} (hN : rev.Nodup)
    (hmem : ∀ j, j ∈ rev ↔ Reaches g root j)
    (hafter : ∀ p m q, rev = p ++ m :: q → ∀ a ∈ argsOf g m, a ∈ q)
    (hsplit : rev = P ++ n :: R) :
    (P.map (fun m => pderiv g m root * edgeInto g m n)).sum =
      (rev.map (fun m => pderiv g m root * edgeInto g m n)).sum := by
  have hnrev : n ∈ rev := by rw [hsplit]; simp
  have hnlen : n < g.length := reaches_lt_length hWF ((hmem n).1 hnrev) hroot
  have hnR : n ∉ R := by
    have h2 := hsplit ▸ hN
    exact (List.nodup_cons.1 h2.of_append_right).1
  rw [hsplit, List.map_append, List.sum_append, List.map_cons, List.sum_cons]
  rw [edgeInto_self_zero hWF hnlen, mul_zero, zero_add]
  have hz : (R.map (fun m => pderiv g m root * edgeInto g m n)).sum = 0 := by
    apply List.sum_eq_zero
    intro x hx
    obtain ⟨m, hmR, rfl⟩ := List.mem_map.1 hx
    have hnotmem : n ∉ argsOf g m := by
      intro hnm
      obtain ⟨R1, R2, hR⟩ := List.append_of_mem hmR
      have hsplit2 : rev = (P ++ n :: R1) ++ m :: R2 := by
        rw [hsplit, hR]
        simp
      have hin := hafter _ _ _ hsplit2 n hnm
      exact hnR (by rw [hR]; simp [hin])
    rw [edgeInto_zero_of_not_mem hnotmem, mul_zero]
  rw [hz, add_zero]

theorem backwardStep_none {h : Graph} {n : Nat}
    (hargs : (getNode h n).args = none) : backwardStep h n = some h := by
  unfold backwardStep
  rw [hargs]

theorem backwardStep_some {h : Graph} {n : Nat} {as : List Nat}
    (hargs : (getNode h n).args = some as) :
    backwardStep h n = (as.zip (ldsOf h n)).foldlM (backwardPush n) h := by
  unfold backwardStep
  rw [hargs]

/-- One iteration of the reversed-order loop preserves the invariant,
extending the processed prefix by the current node. -/
theorem backward_step_inv {g : Graph} (hWF : WF g) {root : Nat}
    (hroot : root < g.length) {rev P R : List Nat} {n : Nat} (hN : rev.Nodup)
    (hmem : ∀ j, j ∈ rev ↔ Reaches g root j)
    (hafter : ∀ p m q, rev = p ++ m :: q → ∀ a ∈ argsOf g m, a ∈ q)
    (hsplit : rev = P ++ n :: R) (h : Graph) (hInv : BInv g root rev P h) :
    ∃ h2, backwardStep h n = some h2 ∧ BInv g root rev (P ++ [n]) h2 := by
  obtain ⟨e, hUn, hD⟩ := hInv
  have hnrev : n ∈ rev := by rw [hsplit]; simp
  have hnr : Reaches g root n := (hmem n).1 hnrev
  have hnlen : n < g.length := reaches_lt_length hWF hnr hroot
  have hcond : n = root ∨ ∃ m ∈ P, n ∈ argsOf g m :=
    cond_at_head hWF hroot hN hmem hafter hsplit
  set d : ℚ := (if n = root then (1:ℚ) else 0) +
    (P.map (fun m => pderiv g m root * edgeInto g m n)).sum with hdd
  have hdn : (getNode h n).derivative = some d := by
    rw [hD n hnrev, if_pos hcond]
  have hdval : d = pderiv g n root := by
    rw [hdd, cSum_early hWF hroot hN hmem hafter hsplit,
      seed_cSum_eq_pderiv hWF hroot hN hmem n]
  cases hargsh : (getNode h n).args with
  | none =>
      have hae : argsOf g n = [] := by
        rw [e.argsOf n]
        unfold argsOf
        rw [hargsh]
        rfl
      refine ⟨h, backwardStep_none hargsh, e, hUn, ?_⟩
      intro j hj
      rw [hD j hj]
      have hcnd : (j = root ∨ ∃ m ∈ P ++ [n], j ∈ argsOf g m) ↔
          (j = root ∨ ∃ m ∈ P, j ∈ argsOf g m) := by
        constructor
        · rintro (h1 | ⟨m, hm, hjm⟩)
          · exact Or.inl h1
          · rcases List.mem_append.1 hm with hm | hm
            · exact Or.inr ⟨m, hm, hjm⟩
            · have : m = n := by simpa using hm
              subst this
              rw [hae] at hjm
              simp at hjm
        · rintro (h1 | ⟨m, hm, hjm⟩)
          · exact Or.inl h1
          · exact Or.inr ⟨m, List.mem_append_left _ hm, hjm⟩
      have hsum : ((P ++ [n]).map
          (fun m => pderiv g m root * edgeInto g m j)).sum =
          (P.map (fun m => pderiv g m root * edgeInto g m j)).sum := by
        rw [List.map_append, List.sum_append]
        simp [edgeInto_zero_of_not_mem (by rw [hae]; simp : j ∉ argsOf g n)]
      rw [if_congr hcnd rfl rfl, hsum]
  | some as =>
      have hae : argsOf g n = as := by
        rw [e.argsOf n]
        unfold argsOf
        rw [hargsh]
        rfl
      have haslt : ∀ a ∈ as, a < n := by
        have := (hWF n hnlen).1
        rw [hae] at this
        exact this
      have hps : as.zip (ldsOf h n) = (argsOf g n).zip (ldsOf g n) := by
        rw [hae, e.ldsOf n]
      obtain ⟨h2, heq2, e2, hUn2, hF2⟩ :=
        push_fold n d ((argsOf g n).zip (ldsOf g n)) h e
          (fun p hp => Nat.ne_of_lt (haslt p.1 (hae ▸ (List.of_mem_zip hp).1)))
          hdn
          (fun p hp =>
            lt_trans (haslt p.1 (hae ▸ (List.of_mem_zip hp).1)) hnlen)
      refine ⟨h2, by rw [backwardStep_some hargsh, hps]; exact heq2,
        e.trans e2, ?_, ?_⟩
      · intro j hj
        have hnargs : ∀ p ∈ (argsOf g n).zip (ldsOf g n), p.1 ≠ j := by
          intro p hp hpj
          have : Reaches g root p.1 := reaches_snoc hnr (List.of_mem_zip hp).1
          exact hj (hpj ▸ (hmem p.1).2 this)
        rw [hUn2 j hnargs]
        exact hUn j hj
      · intro j hj
        by_cases hjargs : j ∈ argsOf g n
        · obtain ⟨p0, hp0, hp0j⟩ := mem_args_exists_pair hWF hnlen hjargs
          have hpsum : (((((argsOf g n).zip (ldsOf g n)).filter
              (fun p => p.1 = j)).map (fun p => d * (getNode g p.2).value)).sum) =
              d * edgeInto g n j := by
            rw [List.sum_map_mul_left]
            rfl
          rw [hF2 j ⟨p0, hp0, hp0j⟩, hpsum]
          have hcnd : j = root ∨ ∃ m ∈ P ++ [n], j ∈ argsOf g m :=
            Or.inr ⟨n, List.mem_append_right _ (by simp), hjargs⟩
          rw [if_pos hcnd, hD j hj]
          by_cases hcold : j = root ∨ ∃ m ∈ P, j ∈ argsOf g m
          · rw [if_pos hcold]
            simp only [Option.getD_some]
            rw [List.map_append, List.sum_append]
            simp only [List.map_cons, List.map_nil, List.sum_cons, List.sum_nil]
            rw [hdval]
            congr 1
            ring
          · rw [if_neg hcold]
            push_neg at hcold
            obtain ⟨hjnr, hnoedge⟩ := hcold
            have hseed : (if j = root then (1:ℚ) else 0) = 0 := if_neg hjnr
            have hP0 : (P.map (fun m => pderiv g m root * edgeInto g m j)).sum
                = 0 := by
              apply List.sum_eq_zero
              intro x hx
              obtain ⟨m, hmP, rfl⟩ := List.mem_map.1 hx
              rw [edgeInto_zero_of_not_mem (hnoedge m hmP), mul_zero]
            rw [List.map_append, List.sum_append]
            simp only [List.map_cons, List.map_nil, List.sum_cons, List.sum_nil]
            rw [hseed, hP0, hdval]
            simp only [Option.getD_none]
            congr 1
            ring
        · have hnargs : ∀ p ∈ (argsOf g n).zip (ldsOf g n), p.1 ≠ j := by
            intro p hp hpj
            exact hjargs (hpj ▸ (List.of_mem_zip hp).1)
          rw [hUn2 j hnargs, hD j hj]
          have hcnd : (j = root ∨ ∃ m ∈ P ++ [n], j ∈ argsOf g m) ↔
              (j = root ∨ ∃ m ∈ P, j ∈ argsOf g m) := by
            constructor
            · rintro (h1 | ⟨m, hm, hjm⟩)
              · exact Or.inl h1
              · rcases List.mem_append.1 hm with hm | hm
                · exact Or.inr ⟨m, hm, hjm⟩
                · have : m = n := by simpa using hm
                  subst this
                  exact absurd hjm hjargs
            · rintro (h1 | ⟨m, hm, hjm⟩)
              · exact Or.inl h1
              · exact Or.inr ⟨m, List.mem_append_left _ hm, hjm⟩
          have hsum : ((P ++ [n]).map
              (fun m => pderiv g m root * edgeInto g m j)).sum =
              (P.map (fun m => pderiv g m root * edgeInto g m j)).sum := by
            rw [List.map_append, List.sum_append]
            simp [edgeInto_zero_of_not_mem hjargs]
          rw [if_congr hcnd rfl rfl, hsum]

/-- The whole reversed-order loop: runs to completion and establishes the
invariant for the fully processed order. -/
theorem backward_fold {g : Graph} (hWF : WF g) {root : Nat}
    (hroot : root < g.length) {rev : List Nat} (hN : rev.Nodup)
    (hmem : ∀ j, j ∈ rev ↔ Reaches g root j)
    (hafter : ∀ p m q, rev = p ++ m :: q → ∀ a ∈ argsOf g m, a ∈ q) :
    ∀ (R P : List Nat) (h : Graph), rev = P ++ R → BInv g root rev P h →
      ∃ h2, R.foldlM backwardStep h = some h2 ∧ BInv g root rev (P ++ R) h2 := by
  intro R
  induction R with
  | nil =>
      intro P h hsplit hInv
      exact ⟨h, rfl, by rw [List.append_nil]; exact hInv⟩
  | cons n R' ih =>
      intro P h hsplit hInv
      obtain ⟨h2, hstep, hInv2⟩ :=
        backward_step_inv hWF hroot hN hmem hafter hsplit h hInv
      obtain ⟨h3, hrest, hInv3⟩ := ih (P ++ [n]) h2
        (by rw [hsplit]; simp) hInv2
      refine ⟨h3, ?_, ?_⟩
      · rw [List.foldlM_cons, hstep]
        exact hrest
      · have : P ++ [n] ++ R' = P ++ n :: R' := by simp
        rw [← this]
        exact hInv3

/-! ### `backward` and `clear_derivatives`: top-level specifications -/

theorem backward_eq (g : Graph) (root : Nat) : backward g root =
    match build_topo (setDeriv g root (some 1))
        (setDeriv g root (some 1)).length root ([], ∅) with
    | none => none
    | some (order, _) =>
        order.reverse.foldlM backwardStep (setDeriv g root (some 1)) := rfl

theorem clear_eq (g : Graph) (root : Nat) : clear_derivatives g root =
    match build_topo g g.length root ([], ∅) with
    | none => none
    | some (order, _) =>
        some (order.foldl (fun h n => setDeriv h n none) g) := rfl

/-- Main correctness of `backward` on a fresh (derivative-free) reachable set:
it succeeds, changes only derivative fields, leaves unreachable nodes alone,
and writes exactly the chain-rule derivative at every reachable node. -/
theorem backward_spec {g : Graph} (hWF : WF g) {root : Nat}
    (hroot : root < g.length)
    (hfresh : ∀ j, Reaches g root j → (getNode g j).derivative = none) :
    ∃ g2, backward g root = some g2 ∧
      EqExceptDeriv g g2 ∧
      (∀ j, Reaches g root j →
        (getNode g2 j).derivative = some (pderiv g j root)) ∧
      (∀ j, ¬ Reaches g root j → getNode g2 j = getNode g j) := by
  set g1 : Graph := setDeriv g root (some 1) with hg1
  have e1 : EqExceptDeriv g g1 := eed_setDeriv g root (some 1)
  have hWF1 : WF g1 := e1.wf hWF
  have hroot1 : root < g1.length := by rw [← e1.1]; exact hroot
  obtain ⟨order, visited, heq, hTopo1, hmem1, _, ⟨pre, hpre⟩⟩ :=
    build_topo_root hWF1 hroot1
  have e1s : EqExceptDeriv g1 g := e1.symm
  have hTopo : TopoOk g order := e1s.topoOk hTopo1
  have hmemg : ∀ j, j ∈ order ↔ Reaches g root j := by
    intro j
    rw [hmem1 j]
    exact ⟨fun hr => e1s.reaches hr, fun hr => e1.reaches hr⟩
  have hN : order.reverse.Nodup := List.nodup_reverse.2 hTopo.nodup
  have hmemr : ∀ j, j ∈ order.reverse ↔ Reaches g root j := by
    intro j
    rw [List.mem_reverse]
    exact hmemg j
  have hafter : ∀ p m q, order.reverse = p ++ m :: q →
      ∀ a ∈ argsOf g m, a ∈ q := fun p m q hsp => hTopo.rev_after p m q hsp
  have hrootmem : root ∈ order := by rw [hpre]; simp
  have hInv0 : BInv g root order.reverse [] g1 := by
    refine ⟨e1, ?_, ?_⟩
    · intro j hj
      have hjr : j ≠ root := fun h => hj (by
        rw [List.mem_reverse]
        exact h ▸ hrootmem)
      rw [hg1, getNode_setDeriv_ne g root j _ hjr]
    · intro j hj
      by_cases hjr : j = root
      · subst hjr
        rw [hg1, getNode_setDeriv_self g j (some 1) hroot]
        rw [if_pos (Or.inl rfl)]
        simp
      · rw [if_neg (by
          rintro (h1 | ⟨m, hm, _⟩)
          · exact hjr h1
          · simp at hm)]
        rw [hg1, getNode_setDeriv_ne g root j _ hjr]
        exact hfresh j ((hmemr j).1 hj)
  obtain ⟨h2, hfold, eF, hUnF, hDF⟩ :=
    backward_fold hWF hroot hN hmemr hafter order.reverse [] g1 rfl hInv0
  refine ⟨h2, ?_, eF, ?_, ?_⟩
  · rw [backward_eq, ← hg1, heq]
    exact hfold
  · intro j hr
    have hj : j ∈ order.reverse := (hmemr j).2 hr
    rw [hDF j hj]
    have hcnd : j = root ∨ ∃ m ∈ [] ++ order.reverse, j ∈ argsOf g m := by
      by_cases hjr : j = root
      · exact Or.inl hjr
      · obtain ⟨m, hrm, hjm⟩ := reaches_dependent hWF hr hroot hjr
        exact Or.inr ⟨m, by simp [(hmemr m).2 hrm], hjm⟩
    rw [if_pos hcnd]
    rw [show ([] : List Nat) ++ order.reverse = order.reverse from rfl]
    rw [seed_cSum_eq_pderiv hWF hroot hN hmemr j]
  · intro j hnr
    exact hUnF j (fun hj => hnr ((hmemr j).1 hj))

/-- Presence-only invariant: the heap differs from `g` only in derivative
fields of nodes in `rev`, and every node that is the root or an arg of an
already-processed node has a present (non-absent) derivative. -/
def PInv (g : Graph) (root : Nat) (rev P : List Nat) (h : Graph) : Prop :=
  EqExceptDeriv g h ∧
  (∀ j, j ∉ rev → getNode h j = getNode g j) ∧
  ∀ j, (j = root ∨ ∃ m ∈ P, j ∈ argsOf g m) →
    (getNode h j).derivative ≠ none

theorem backward_step_total {g : Graph} (hWF : WF g) {root : Nat}
    (hroot : root < g.length) {rev P R : List Nat} {n : Nat} (hN : rev.Nodup)
    (hmem : ∀ j, j ∈ rev ↔ Reaches g root j)
    (hafter : ∀ p m q, rev = p ++ m :: q → ∀ a ∈ argsOf g m, a ∈ q)
    (hsplit : rev = P ++ n :: R) (h : Graph) (hInv : PInv g root rev P h) :
    ∃ h2, backwardStep h n = some h2 ∧ PInv g root rev (P ++ [n]) h2 := by
  obtain ⟨e, hUn, hP⟩ := hInv
  have hnrev : n ∈ rev := by rw [hsplit]; simp
  have hnr : Reaches g root n := (hmem n).1 hnrev
  have hnlen : n < g.length := reaches_lt_length hWF hnr hroot
  have hcond : n = root ∨ ∃ m ∈ P, n ∈ argsOf g m :=
    cond_at_head hWF hroot hN hmem hafter hsplit
  obtain ⟨d, hdn⟩ := Option.ne_none_iff_exists'.1 (hP n hcond)
  cases hargsh : (getNode h n).args with
  | none =>
      have hae : argsOf g n = [] := by
        rw [e.argsOf n]
        unfold argsOf
        rw [hargsh]
        rfl
      refine ⟨h, backwardStep_none hargsh, e, hUn, ?_⟩
      rintro j (h1 | ⟨m, hm, hjm⟩)
      · exact hP j (Or.inl h1)
      · rcases List.mem_append.1 hm with hm | hm
        · exact hP j (Or.inr ⟨m, hm, hjm⟩)
        · have : m = n := by simpa using hm
          subst this
          rw [hae] at hjm
          simp at hjm
  | some as =>
      have hae : argsOf g n = as := by
        rw [e.argsOf n]
        unfold argsOf
        rw [hargsh]
        rfl
      have haslt : ∀ a ∈ as, a < n := by
        have := (hWF n hnlen).1
        rw [hae] at this
        exact this
      have hps : as.zip (ldsOf h n) = (argsOf g n).zip (ldsOf g n) := by
        rw [hae, e.ldsOf n]
      obtain ⟨h2, heq2, e2, hUn2, hF2⟩ :=
        push_fold n d ((argsOf g n).zip (ldsOf g n)) h e
          (fun p hp => Nat.ne_of_lt (haslt p.1 (hae ▸ (List.of_mem_zip hp).1)))
          hdn
          (fun p hp =>
            lt_trans (haslt p.1 (hae ▸ (List.of_mem_zip hp).1)) hnlen)
      have hnrrev : n ∈ rev := by rw [hsplit]; simp
      have hnr2 : Reaches g root n := (hmem n).1 hnrrev
      refine ⟨h2, by rw [backwardStep_some hargsh, hps]; exact heq2,
        e.trans e2, ?_, ?_⟩
      · intro j hj
        have hnargs : ∀ p ∈ (argsOf g n).zip (ldsOf g n), p.1 ≠ j := by
          intro p hp hpj
          have : Reaches g root p.1 := reaches_snoc hnr2 (List.of_mem_zip hp).1
          exact hj (hpj ▸ (hmem p.1).2 this)
        rw [hUn2 j hnargs]
        exact hUn j hj
      intro j hj
      by_cases hjargs : j ∈ argsOf g n
      · obtain ⟨p0, hp0, hp0j⟩ := mem_args_exists_pair hWF hnlen hjargs
        rw [hF2 j ⟨p0, hp0, hp0j⟩]
        exact Option.some_ne_none _
      · have hnargs : ∀ p ∈ (argsOf g n).zip (ldsOf g n), p.1 ≠ j := by
          intro p hp hpj
          exact hjargs (hpj ▸ (List.of_mem_zip hp).1)
        rw [hUn2 j hnargs]
        rcases hj with h1 | ⟨m, hm, hjm⟩
        · exact hP j (Or.inl h1)
        · rcases List.mem_append.1 hm with hm | hm
          · exact hP j (Or.inr ⟨m, hm, hjm⟩)
          · have : m = n := by simpa using hm
            subst this
            exact absurd hjm hjargs

theorem backward_fold_total {g : Graph} (hWF : WF g) {root : Nat}
    (hroot : root < g.length) {rev : List Nat} (hN : rev.Nodup)
    (hmem : ∀ j, j ∈ rev ↔ Reaches g root j)
    (hafter : ∀ p m q, rev = p ++ m :: q → ∀ a ∈ argsOf g m, a ∈ q) :
    ∀ (R P : List Nat) (h : Graph), rev = P ++ R → PInv g root rev P h →
      ∃ h2, R.foldlM backwardStep h = some h2 ∧ PInv g root rev (P ++ R) h2 := by
  intro R
  induction R with
  | nil =>
      intro P h _ hInv
      exact ⟨h, rfl, by rw [List.append_nil]; exact hInv⟩
  | cons n R' ih =>
      intro P h hsplit hInv
      obtain ⟨h2, hstep, hInv2⟩ :=
        backward_step_total hWF hroot hN hmem hafter hsplit h hInv
      obtain ⟨h3, hrest, hInv3⟩ := ih (P ++ [n]) h2 (by rw [hsplit]; simp) hInv2
      refine ⟨h3, ?_, ?_⟩
      · rw [List.foldlM_cons, hstep]
        exact hrest
      · have : P ++ [n] ++ R' = P ++ n :: R' := by simp
        rw [← this]
        exact hInv3

/-- `backward` never dereferences an absent derivative and processes each node
of the (duplicate-free) topological order exactly once — regardless of what
derivative values are present beforehand. -/
theorem backward_total {g : Graph} (hWF : WF g) {root : Nat}
    (hroot : root < g.length) :
    ∃ order visited g2,
      build_topo (setDeriv g root (some 1))
        (setDeriv g root (some 1)).length root ([], ∅) =
        some (order, visited) ∧
      order.Nodup ∧
      backward g root = some g2 ∧
      EqExceptDeriv g g2 ∧
      (∀ j, ¬ Reaches g root j → getNode g2 j = getNode g j) := by
  set g1 : Graph := setDeriv g root (some 1) with hg1
  have e1 : EqExceptDeriv g g1 := eed_setDeriv g root (some 1)
  have hWF1 : WF g1 := e1.wf hWF
  have hroot1 : root < g1.length := by rw [← e1.1]; exact hroot
  obtain ⟨order, visited, heq, hTopo1, hmem1, _, ⟨pre, hpre⟩⟩ :=
    build_topo_root hWF1 hroot1
  have e1s : EqExceptDeriv g1 g := e1.symm
  have hTopo : TopoOk g order := e1s.topoOk hTopo1
  have hmemg : ∀ j, j ∈ order ↔ Reaches g root j := by
    intro j
    rw [hmem1 j]
    exact ⟨fun hr => e1s.reaches hr, fun hr => e1.reaches hr⟩
  have hN : order.reverse.Nodup := List.nodup_reverse.2 hTopo.nodup
  have hmemr : ∀ j, j ∈ order.reverse ↔ Reaches g root j := by
    intro j
    rw [List.mem_reverse]
    exact hmemg j
  have hafter : ∀ p m q, order.reverse = p ++ m :: q →
      ∀ a ∈ argsOf g m, a ∈ q := fun p m q hsp => hTopo.rev_after p m q hsp
  have hrootmem : root ∈ order := by rw [hpre]; simp
  have hInv0 : PInv g root order.reverse [] g1 := by
    refine ⟨e1, ?_, ?_⟩
    · intro j hj
      have hjr : j ≠ root := fun h => hj (by
        rw [List.mem_reverse]
        exact h ▸ hrootmem)
      rw [hg1, getNode_setDeriv_ne g root j _ hjr]
    · rintro j (h1 | ⟨m, hm, _⟩)
      · subst h1
        rw [hg1, getNode_setDeriv_self g j (some 1) hroot]
        exact Option.some_ne_none _
      · simp at hm
  obtain ⟨h2, hfold, eF, hUnF, _⟩ :=
    backward_fold_total hWF hroot hN hmemr hafter order.reverse [] g1 rfl hInv0
  refine ⟨order, visited, h2, heq, hTopo.nodup, ?_, eF, ?_⟩
  · rw [backward_eq, ← hg1, heq]
    exact hfold
  · intro j hnr
    exact hUnF j (fun hj => hnr ((hmemr j).1 hj))

/-- The clearing fold: sets the derivative of every listed node to `None` and
changes nothing else. -/
theorem clear_fold : ∀ (l : List Nat) (h : Graph), (∀ n ∈ l, n < h.length) →
    ((l.foldl (fun h n => setDeriv h n none) h).length = h.length) ∧
    (∀ j, getNode (l.foldl (fun h n => setDeriv h n none) h) j =
      if j ∈ l then { getNode h j with derivative := none } else getNode h j) := by
  intro l
  induction l with
  | nil =>
      intro h _
      exact ⟨rfl, fun j => by simp⟩
  | cons n rest ih =>
      intro h hbnd
      have hn : n < h.length := hbnd n (by simp)
      have hbnd' : ∀ m ∈ rest, m < (setDeriv h n none).length := by
        intro m hm
        rw [length_setDeriv]
        exact hbnd m (by simp [hm])
      obtain ⟨ihlen, ihget⟩ := ih (setDeriv h n none) hbnd'
      constructor
      · rw [List.foldl_cons, ihlen, length_setDeriv]
      · intro j
        rw [List.foldl_cons, ihget j]
        by_cases hjr : j ∈ rest
        · rw [if_pos hjr, if_pos (by simp [hjr])]
          by_cases hjn : j = n
          · subst hjn
            rw [getNode_setDeriv_self h j none hn]
          · rw [getNode_setDeriv_ne h n j none hjn]
        · rw [if_neg hjr]
          by_cases hjn : j = n
          · subst hjn
            rw [if_pos (by simp), getNode_setDeriv_self h j none hn]
          · rw [if_neg (by simp [hjn, hjr]), getNode_setDeriv_ne h n j none hjn]

/-- Main correctness of `clear_derivatives`: succeeds, resets the derivative
of every reachable node to absent, leaves everything else untouched. -/
theorem clear_spec {g : Graph} (hWF : WF g) {root : Nat}
    (hroot : root < g.length) :
    ∃ g2, clear_derivatives g root = some g2 ∧
      EqExceptDeriv g g2 ∧
      (∀ j, Reaches g root j → (getNode g2 j).derivative = none) ∧
      (∀ j, ¬ Reaches g root j → getNode g2 j = getNode g j) := by
  obtain ⟨order, visited, heq, hTopo, hmem, hle, _⟩ := build_topo_root hWF hroot
  have hbnd : ∀ n ∈ order, n < g.length :=
    fun n hn => lt_of_le_of_lt (hle n hn) hroot
  obtain ⟨hlen, hget⟩ := clear_fold order g hbnd
  refine ⟨order.foldl (fun h n => setDeriv h n none) g, ?_, ?_, ?_, ?_⟩
  · rw [clear_eq, heq]
  · refine ⟨hlen.symm, fun i => ?_⟩
    rw [hget i]
    by_cases hi : i ∈ order <;> simp [hi]
  · intro j hr
    rw [hget j, if_pos ((hmem j).2 hr)]
  · intro j hnr
    rw [hget j, if_neg (fun hj => hnr ((hmem j).1 hj))]

/-! ### Graph extensionality and well-formedness of built graphs -/

theorem graph_ext {g h : Graph} (hl : g.length = h.length)
    (hp : ∀ i, i < g.length → getNode g i = getNode h i) : g = h := by
  apply List.ext_getElem hl
  intro i h1 h2
  rw [← getNode_eq_getElem g i h1, ← getNode_eq_getElem h i h2]
  exact hp i h1

theorem getNode_append3_zero (g : Graph) (x y z : Tensor) :
    getNode (g ++ [x, y, z]) g.length = x := by
  have := getNode_append_right g [x, y, z] 0
  simpa using this

theorem getNode_append3_one (g : Graph) (x y z : Tensor) :
    getNode (g ++ [x, y, z]) (g.length + 1) = y := by
  have := getNode_append_right g [x, y, z] 1
  simpa using this

theorem getNode_append3_two (g : Graph) (x y z : Tensor) :
    getNode (g ++ [x, y, z]) (g.length + 2) = z := by
  have := getNode_append_right g [x, y, z] 2
  simpa using this

theorem getNode_append1_zero (g : Graph) (x : Tensor) :
    getNode (g ++ [x]) g.length = x := by
  have := getNode_append_right g [x] 0
  simpa using this

/-- A heap of pure leaves (no args, no local derivatives) is well-formed. -/
theorem WF_leaves (l : Graph)
    (h : ∀ t ∈ l, t.args = none ∧ t.local_derivatives = none) : WF l := by
  intro i hi
  have hmem : getNode l i ∈ l := by
    rw [getNode_eq_getElem l i hi]
    exact List.getElem_mem hi
  obtain ⟨ha, hl⟩ := h _ hmem
  unfold argsOf ldsOf
  rw [ha, hl]
  exact ⟨by simp, by simp, rfl⟩

theorem WF_mkTensor {g : Graph} (hWF : WF g) (v : ℚ) (nm : Option String) :
    WF (mkTensor g v nm).1 := by
  intro i hi
  simp only [mkTensor, List.length_append, List.length_cons, List.length_nil] at hi
  by_cases hig : i < g.length
  · have he : getNode (mkTensor g v nm).1 i = getNode g i :=
      getNode_append_lt g _ i hig
    obtain ⟨h1, h2, h3⟩ := hWF i hig
    have hae : argsOf (mkTensor g v nm).1 i = argsOf g i := by
      unfold argsOf
      rw [he]
    have hle : ldsOf (mkTensor g v nm).1 i = ldsOf g i := by
      unfold ldsOf
      rw [he]
    rw [hae, hle]
    exact ⟨h1, fun l hl => lt_of_lt_of_le (h2 l hl) (by simp [mkTensor]), h3⟩
  · have hieq : i = g.length := by omega
    subst hieq
    have he : getNode (mkTensor g v nm).1 g.length = ⟨v, none, none, none, nm⟩ :=
      getNode_append1_zero g _
    unfold argsOf ldsOf
    rw [he]
    exact ⟨by simp, by simp, rfl⟩

theorem WF_add {g : Graph} (hWF : WF g) {a b : Nat} (ha : a < g.length)
    (hb : b < g.length) : WF (_add g a b).1 := by
  intro i hi
  simp only [_add, List.length_append, List.length_cons, List.length_nil] at hi
  have hlen : (_add g a b).1.length = g.length + 3 := by simp [_add]
  by_cases hig : i < g.length
  · have he : getNode (_add g a b).1 i = getNode g i :=
      getNode_append_lt g _ i hig
    obtain ⟨h1, h2, h3⟩ := hWF i hig
    have hae2 : argsOf (_add g a b).1 i = argsOf g i := by
      unfold argsOf
      rw [he]
    have hle2 : ldsOf (_add g a b).1 i = ldsOf g i := by
      unfold ldsOf
      rw [he]
    rw [hae2, hle2, hlen]
    exact ⟨h1, fun l hl => by have := h2 l hl; omega, h3⟩
  · unfold argsOf ldsOf
    rw [hlen]
    rcases (by omega : i = g.length ∨ i = g.length + 1 ∨ i = g.length + 2)
      with hieq | hieq | hieq <;> subst hieq
    · rw [show (_add g a b).1 = g ++ [_, _, _] from rfl, getNode_append3_zero]
      refine ⟨?_, ?_, rfl⟩
      · intro x hx
        simp only [Option.getD_some, List.mem_cons, List.mem_singleton] at hx
        rcases hx with rfl | hx
        · exact ha
        · simp at hx
          omega
      · intro l hl
        simp only [Option.getD_some, List.mem_cons, List.mem_singleton] at hl
        rcases hl with rfl | hl
        · omega
        · simp at hl
          omega
    · rw [show (_add g a b).1 = g ++ [_, _, _] from rfl, getNode_append3_one]
      exact ⟨by simp, by simp, rfl⟩
    · rw [show (_add g a b).1 = g ++ [_, _, _] from rfl, getNode_append3_two]
      exact ⟨by simp, by simp, rfl⟩

theorem WF_sub {g : Graph} (hWF : WF g) {a b : Nat} (ha : a < g.length)
    (hb : b < g.length) : WF (_sub g a b).1 := by
  intro i hi
  simp only [_sub, List.length_append, List.length_cons, List.length_nil] at hi
  have hlen : (_sub g a b).1.length = g.length + 3 := by simp [_sub]
  by_cases hig : i < g.length
  · have he : getNode (_sub g a b).1 i = getNode g i :=
      getNode_append_lt g _ i hig
    obtain ⟨h1, h2, h3⟩ := hWF i hig
    have hae2 : argsOf (_sub g a b).1 i = argsOf g i := by
      unfold argsOf
      rw [he]
    have hle2 : ldsOf (_sub g a b).1 i = ldsOf g i := by
      unfold ldsOf
      rw [he]
    rw [hae2, hle2, hlen]
    exact ⟨h1, fun l hl => by have := h2 l hl; omega, h3⟩
  · unfold argsOf ldsOf
    rw [hlen]
    rcases (by omega : i = g.length ∨ i = g.length + 1 ∨ i = g.length + 2)
      with hieq | hieq | hieq <;> subst hieq
    · rw [show (_sub g a b).1 = g ++ [_, _, _] from rfl, getNode_append3_zero]
      refine ⟨?_, ?_, rfl⟩
      · intro x hx
        simp only [Option.getD_some, List.mem_cons, List.mem_singleton] at hx
        rcases hx with rfl | hx
        · exact ha
        · simp at hx
          omega
      · intro l hl
        simp only [Option.getD_some, List.mem_cons, List.mem_singleton] at hl
        rcases hl with rfl | hl
        · omega
        · simp at hl
          omega
    · rw [show (_sub g a b).1 = g ++ [_, _, _] from rfl, getNode_append3_one]
      exact ⟨by simp, by simp, rfl⟩
    · rw [show (_sub g a b).1 = g ++ [_, _, _] from rfl, getNode_append3_two]
      exact ⟨by simp, by simp, rfl⟩

theorem WF_mul {g : Graph} (hWF : WF g) {a b : Nat} (ha : a < g.length)
    (hb : b < g.length) : WF (_mul g a b).1 := by
  intro i hi
  simp only [_mul, List.length_append, List.length_cons, List.length_nil] at hi
  have hlen : (_mul g a b).1.length = g.length + 1 := by simp [_mul]
  by_cases hig : i < g.length
  · have he : getNode (_mul g a b).1 i = getNode g i :=
      getNode_append_lt g _ i hig
    obtain ⟨h1, h2, h3⟩ := hWF i hig
    have hae2 : argsOf (_mul g a b).1 i = argsOf g i := by
      unfold argsOf
      rw [he]
    have hle2 : ldsOf (_mul g a b).1 i = ldsOf g i := by
      unfold ldsOf
      rw [he]
    rw [hae2, hle2, hlen]
    exact ⟨h1, fun l hl => by have := h2 l hl; omega, h3⟩
  · have hieq : i = g.length := by omega
    subst hieq
    unfold argsOf ldsOf
    rw [hlen]
    rw [show (_mul g a b).1 = g ++ [_] from rfl, getNode_append1_zero]
    refine ⟨?_, ?_, rfl⟩
    · intro x hx
      simp only [Option.getD_some, List.mem_cons, List.mem_singleton] at hx
      rcases hx with rfl | hx
      · exact ha
      · simp at hx
        omega
    · intro l hl
      simp only [Option.getD_some, List.mem_cons, List.mem_singleton] at hl
      rcases hl with rfl | hl
      · omega
      · simp at hl
        omega

/-! ### Claim theorems -/

/-- Concrete test graph (the repository's shared-node diamond): `x = Tensor(5)`
at index 0, `c = Tensor(3)` at 1, `x + c` at 2 (its local-derivative leaves at
3 and 4), and `y = (x + c) * x` at 5. -/
def gdiamond : Graph :=
  (_mul ((_add [⟨5, none, none, none, some "x"⟩,
                ⟨3, none, none, none, some "c"⟩] 0 1).1) 2 0).1

/-- C1: on an acyclic well-formed graph whose nodes are fresh (all derivatives
absent, as for a graph just built from the elementary operations), `backward`
succeeds and writes into every node reachable from the root exactly the
multivariable chain-rule derivative `pderiv` — the sum over all parent-link
paths from the root of the products of the stored local-derivative values —
accumulated (never overwritten) across multiple paths. -/
theorem C1_backward_chain_rule {g : Graph} (hWF : WF g) {root : Nat}
    (hroot : root < g.length)
    (hfresh : ∀ j, j < g.length → (getNode g j).derivative = none) :
    ∃ g2, backward g root = some g2 ∧
      ∀ j, Reaches g root j →
        (getNode g2 j).derivative = some (pderiv g j root) := by
  obtain ⟨g2, h1, _, h3, _⟩ := backward_spec hWF hroot
    (fun j hr => hfresh j (reaches_lt_length hWF hr hroot))
  exact ⟨g2, h1, h3⟩

theorem C1_backward_chain_rule_witness :
    (WF gdiamond ∧ 5 < gdiamond.length ∧
      (∀ j, j < gdiamond.length → (getNode gdiamond j).derivative = none)) ∧
    ∃ g2, backward gdiamond 5 = some g2 ∧
      ∀ j, Reaches gdiamond 5 j →
        (getNode g2 j).derivative = some (pderiv gdiamond j 5) :=
  ⟨⟨by decide, by decide, by decide⟩,
    C1_backward_chain_rule (by decide) (by decide) (by decide)⟩

/-- C2: `build_topo`, called (as `backward` and `clear_derivatives` call it)
with empty order and visited set, succeeds on acyclic well-formed graphs and
produces a list containing every node reachable from the root exactly once
(`Nodup` plus the membership equivalence, regardless of how many paths reach
a node), in which every node's args occur strictly before it, and whose last
element is the root. -/
theorem C2_build_topo_topological_order {g : Graph} (hWF : WF g) {root : Nat}
    (hroot : root < g.length) :
    ∃ order visited, build_topo g g.length root ([], ∅) = some (order, visited) ∧
      order.Nodup ∧
      (∀ j, j ∈ order ↔ Reaches g root j) ∧
      (∀ p n q, order = p ++ n :: q → ∀ a ∈ argsOf g n, a ∈ p) ∧
      order.getLast? = some root := by
  obtain ⟨order, visited, heq, hT, hmem, _, ⟨pre, hpre⟩⟩ :=
    build_topo_root hWF hroot
  exact ⟨order, visited, heq, hT.nodup, hmem,
    fun p n q hs => hT.before p n q hs,
    by rw [hpre]; exact List.getLast?_concat _⟩

theorem C2_build_topo_topological_order_witness :
    (WF gdiamond ∧ 5 < gdiamond.length) ∧
    ∃ order visited,
      build_topo gdiamond gdiamond.length 5 ([], ∅) = some (order, visited) ∧
      order.Nodup ∧
      (∀ j, j ∈ order ↔ Reaches gdiamond 5 j) ∧
      (∀ p n q, order = p ++ n :: q → ∀ a ∈ argsOf gdiamond n, a ∈ p) ∧
      order.getLast? = some 5 :=
  ⟨⟨by decide, by decide⟩,
    C2_build_topo_topological_order (by decide) (by decide)⟩

/-- C3: starting from a fresh graph, run `backward`, then `clear_derivatives`
(which leaves every reachable node's derivative absent), then `backward`
again: the final heap is exactly the heap after the first backward pass — no
residual state. -/
theorem C3_clear_then_backward_reproduces {g : Graph} (hWF : WF g) {root : Nat}
    (hroot : root < g.length)
    (hfresh : ∀ j, j < g.length → (getNode g j).derivative = none) :
    ∃ g1 g2 g3, backward g root = some g1 ∧
      clear_derivatives g1 root = some g2 ∧
      (∀ j, Reaches g root j → (getNode g2 j).derivative = none) ∧
      backward g2 root = some g3 ∧
      g3 = g1 := by
  have hfresh' : ∀ j, Reaches g root j → (getNode g j).derivative = none :=
    fun j hr => hfresh j (reaches_lt_length hWF hr hroot)
  obtain ⟨g1, hb1, e1, hD1, hU1⟩ := backward_spec hWF hroot hfresh'
  have hWF1 : WF g1 := e1.wf hWF
  have hroot1 : root < g1.length := by rw [← e1.1]; exact hroot
  obtain ⟨g2, hc2, e2, hD2, hU2⟩ := clear_spec hWF1 hroot1
  have e12 : EqExceptDeriv g g2 := e1.trans e2
  have hWF2 : WF g2 := e12.wf hWF
  have hroot2 : root < g2.length := by rw [← e12.1]; exact hroot
  have hreach2 : ∀ j, Reaches g2 root j ↔ Reaches g root j :=
    fun j => ⟨fun hr => e12.symm.reaches hr, fun hr => e12.reaches hr⟩
  have hfresh2 : ∀ j, Reaches g2 root j → (getNode g2 j).derivative = none :=
    fun j hr => hD2 j (e2.symm.reaches hr)
  obtain ⟨g3, hb3, e3, hD3, hU3⟩ := backward_spec hWF2 hroot2 hfresh2
  refine ⟨g1, g2, g3, hb1, hc2, fun j hr => hD2 j (e1.reaches hr), hb3, ?_⟩
  apply graph_ext (e3.1.symm.trans e2.1.symm)
  intro i hi3
  by_cases hr : Reaches g root i
  · have hd3 : (getNode g3 i).derivative = some (pderiv g2 i root) :=
      hD3 i ((hreach2 i).2 hr)
  -- both passes wrote the same chain-rule value; all other fields come from g
    have hd1 : (getNode g1 i).derivative = some (pderiv g i root) := hD1 i hr
    have e13 : EqExceptDeriv g g3 := e12.trans e3
    apply Tensor.ext'
    · exact (e13.value i).symm.trans (e1.value i)
    · exact ((e13.2 i).2.1).symm.trans ((e1.2 i).2.1)
    · exact ((e13.2 i).2.2.1).symm.trans ((e1.2 i).2.2.1)
    · rw [hd3, hd1, (e12.pderiv i root).symm]
    · exact ((e13.2 i).2.2.2).symm.trans ((e1.2 i).2.2.2)
  · have h3u : getNode g3 i = getNode g2 i :=
      hU3 i (fun hr2 => hr ((hreach2 i).1 hr2))
    have h2u : getNode g2 i = getNode g1 i :=
      hU2 i (fun hr1 => hr (e1.symm.reaches hr1))
    rw [h3u, h2u]

theorem C3_clear_then_backward_reproduces_witness :
    (WF gdiamond ∧ 5 < gdiamond.length ∧
      (∀ j, j < gdiamond.length → (getNode gdiamond j).derivative = none)) ∧
    ∃ g1 g2 g3, backward gdiamond 5 = some g1 ∧
      clear_derivatives g1 5 = some g2 ∧
      (∀ j, Reaches gdiamond 5 j → (getNode g2 j).derivative = none) ∧
      backward g2 5 = some g3 ∧
      g3 = g1 :=
  ⟨⟨by decide, by decide, by decide⟩,
    C3_clear_then_backward_reproduces (by decide) (by decide) (by decide)⟩

/-- C4: for distinct fresh leaves `a` (value `va`, index 0) and `b` (value
`vb`, index 1) and `y = multiply(a, b)` (index 2), `backward(y)` yields
`derivative(y) = 1`, `derivative(a) = derivative(y) * b.value` and
`derivative(b) = derivative(y) * a.value`, i.e. `vb` and `va`. -/
theorem C4_product_rule (va vb : ℚ) :
    ∃ g2, backward ((_mul [⟨va, none, none, none, none⟩,
        ⟨vb, none, none, none, none⟩] 0 1).1) 2 = some g2 ∧
      (getNode g2 2).derivative = some 1 ∧
      (getNode g2 0).derivative = some (1 * vb) ∧
      (getNode g2 1).derivative = some (1 * va) ∧
      (getNode g2 0).derivative = some vb ∧
      (getNode g2 1).derivative = some va := by
  set gm : Graph := (_mul [⟨va, none, none, none, none⟩,
    ⟨vb, none, none, none, none⟩] 0 1).1 with hgm
  have hWFm : WF gm := WF_mul (WF_leaves _ (by
    intro t ht
    simp at ht
    rcases ht with rfl | rfl <;> exact ⟨rfl, rfl⟩)) (by simp) (by simp)
  have hroot : 2 < gm.length := by simp [hgm, _mul]
  have hfresh : ∀ j, Reaches gm 2 j → (getNode gm j).derivative = none := by
    intro j hr
    have hj : j < 3 := by
      have := reaches_lt_length hWFm hr hroot
      simpa [hgm, _mul] using this
    interval_cases j <;> rfl
  obtain ⟨g2, hb, _, hD, _⟩ := backward_spec hWFm hroot hfresh
  have hm0 : (0 : Nat) ∈ argsOf gm 2 := by
    simp [hgm, argsOf, getNode, _mul]
  have hm1 : (1 : Nat) ∈ argsOf gm 2 := by
    simp [hgm, argsOf, getNode, _mul]
  have hp2 : pderiv gm 2 2 = 1 := by
    simp [hgm, pderiv, pathDeriv, argsOf, ldsOf, getNode, _mul, defTensor]
  have hp0 : pderiv gm 0 2 = vb := by
    simp [hgm, pderiv, pathDeriv, argsOf, ldsOf, getNode, _mul, defTensor]
  have hp1 : pderiv gm 1 2 = va := by
    simp [hgm, pderiv, pathDeriv, argsOf, ldsOf, getNode, _mul, defTensor]
  have hd2 := hD 2 (Reaches.refl 2)
  have hd0 := hD 0 (Reaches.step hm0 (Reaches.refl 0))
  have hd1 := hD 1 (Reaches.step hm1 (Reaches.refl 1))
  rw [hp2] at hd2
  rw [hp0] at hd0
  rw [hp1] at hd1
  exact ⟨g2, hb, hd2, by rw [hd0, one_mul], by rw [hd1, one_mul], hd0, hd1⟩

theorem getNode_add_res (g : Graph) (a b : Nat) :
    getNode (_add g a b).1 (_add g a b).2 =
      ⟨(getNode g a).value + (getNode g b).value, some [a, b],
        some [g.length + 1, g.length + 2], none, none⟩ :=
  getNode_append3_zero g _ _ _

theorem getNode_add_l1 (g : Graph) (a b : Nat) :
    getNode (_add g a b).1 (g.length + 1) = ⟨1, none, none, none, none⟩ :=
  getNode_append3_one g _ _ _

theorem getNode_add_l2 (g : Graph) (a b : Nat) :
    getNode (_add g a b).1 (g.length + 2) = ⟨1, none, none, none, none⟩ :=
  getNode_append3_two g _ _ _

theorem getNode_sub_res (g : Graph) (a b : Nat) :
    getNode (_sub g a b).1 (_sub g a b).2 =
      ⟨(getNode g a).value - (getNode g b).value, some [a, b],
        some [g.length + 1, g.length + 2], none, none⟩ :=
  getNode_append3_zero g _ _ _

theorem getNode_sub_l1 (g : Graph) (a b : Nat) :
    getNode (_sub g a b).1 (g.length + 1) = ⟨1, none, none, none, none⟩ :=
  getNode_append3_one g _ _ _

theorem getNode_sub_l2 (g : Graph) (a b : Nat) :
    getNode (_sub g a b).1 (g.length + 2) = ⟨-1, none, none, none, none⟩ :=
  getNode_append3_two g _ _ _

theorem getNode_mul_res (g : Graph) (a b : Nat) :
    getNode (_mul g a b).1 (_mul g a b).2 =
      ⟨(getNode g a).value * (getNode g b).value, some [a, b],
        some [b, a], none, none⟩ :=
  getNode_append1_zero g _

theorem getNode_mul_lt (g : Graph) (a b i : Nat) (hi : i < g.length) :
    getNode (_mul g a b).1 i = getNode g i :=
  getNode_append_lt g _ i hi

/-- C5: the three elementary operations compute the documented forward value,
store `args = [a, b]` in operand order, and store local-derivative values
`(1, 1)` for add, `(1, -1)` for subtract and `(b.value, a.value)` for
multiply, evaluated at the operand values present at construction time. -/
theorem C5_op_construction {g : Graph} {a b : Nat} (ha : a < g.length)
    (hb : b < g.length) :
    ((getNode (_add g a b).1 (_add g a b).2).value =
        (getNode g a).value + (getNode g b).value ∧
      (getNode (_add g a b).1 (_add g a b).2).args = some [a, b] ∧
      (ldsOf (_add g a b).1 (_add g a b).2).map
        (fun l => (getNode (_add g a b).1 l).value) = [1, 1]) ∧
    ((getNode (_sub g a b).1 (_sub g a b).2).value =
        (getNode g a).value - (getNode g b).value ∧
      (getNode (_sub g a b).1 (_sub g a b).2).args = some [a, b] ∧
      (ldsOf (_sub g a b).1 (_sub g a b).2).map
        (fun l => (getNode (_sub g a b).1 l).value) = [1, -1]) ∧
    ((getNode (_mul g a b).1 (_mul g a b).2).value =
        (getNode g a).value * (getNode g b).value ∧
      (getNode (_mul g a b).1 (_mul g a b).2).args = some [a, b] ∧
      (ldsOf (_mul g a b).1 (_mul g a b).2).map
        (fun l => (getNode (_mul g a b).1 l).value) =
        [(getNode g b).value, (getNode g a).value]) := by
  refine ⟨⟨?_, ?_, ?_⟩, ⟨?_, ?_, ?_⟩, ⟨?_, ?_, ?_⟩⟩
  · rw [getNode_add_res]
  · rw [getNode_add_res]
  · unfold ldsOf
    rw [getNode_add_res]
    simp only [Option.getD_some, List.map_cons, List.map_nil]
    rw [getNode_add_l1, getNode_add_l2]
  · rw [getNode_sub_res]
  · rw [getNode_sub_res]
  · unfold ldsOf
    rw [getNode_sub_res]
    simp only [Option.getD_some, List.map_cons, List.map_nil]
    rw [getNode_sub_l1, getNode_sub_l2]
  · rw [getNode_mul_res]
  · rw [getNode_mul_res]
  · unfold ldsOf
    rw [getNode_mul_res]
    simp only [Option.getD_some, List.map_cons, List.map_nil]
    rw [getNode_mul_lt g a b b hb, getNode_mul_lt g a b a ha]

theorem C5_op_construction_witness :
    ((0 : Nat) < 2 ∧ (1 : Nat) < 2) ∧
    (((getNode (_add [⟨2, none, none, none, none⟩, ⟨3, none, none, none, none⟩]
        0 1).1 (_add [⟨2, none, none, none, none⟩,
        ⟨3, none, none, none, none⟩] 0 1).2).value = 2 + 3) ∧ True) := by
  constructor
  · exact ⟨by decide, by decide⟩
  · constructor
    · exact (C5_op_construction (g := [⟨2, none, none, none, none⟩,
        ⟨3, none, none, none, none⟩]) (by decide) (by decide)).1.1
    · trivial

/-- C6 counterexample: for `y = multiply(a, b)` with fresh leaves
`a = Tensor(2)` (index 0) and `b = Tensor(3)` (index 1), the stored
local-derivative entries of `y` (index 2) are NOT freshly materialized nodes
distinct from the operands: `_mul` stores `local_derivatives = (b, a)` — the
operand objects themselves — so the claim fails at this input. -/
theorem C6_counterexample_mul_lds_are_operands :
    ¬ freshLocalDerivs ((_mul [⟨2, none, none, none, none⟩,
      ⟨3, none, none, none, none⟩] 0 1).1) 2 0 1 := by
  decide

/-- C6 amended: for add and subtract the two stored local-derivative entries
are freshly materialized scalar-holding nodes with absent parents and absent
derivative, distinct from the operands; for multiply, however, the stored
entries are exactly the operand nodes `b` and `a` themselves (participating in
accumulation only through their `value`). -/
theorem C6_local_derivative_representation {g : Graph} {a b : Nat}
    (ha : a < g.length) (hb : b < g.length) :
    freshLocalDerivs (_add g a b).1 (_add g a b).2 a b ∧
    freshLocalDerivs (_sub g a b).1 (_sub g a b).2 a b ∧
    ldsOf (_mul g a b).1 (_mul g a b).2 = [b, a] := by
  refine ⟨?_, ?_, ?_⟩
  · intro l hl
    unfold ldsOf at hl
    rw [getNode_add_res] at hl
    simp only [Option.getD_some, List.mem_cons, List.mem_singleton] at hl
    rcases hl with rfl | hl
    · exact ⟨by omega, by omega, by rw [getNode_add_l1], by rw [getNode_add_l1]⟩
    · have : l = g.length + 2 := by simpa using hl
      subst this
      exact ⟨by omega, by omega, by rw [getNode_add_l2], by rw [getNode_add_l2]⟩
  · intro l hl
    unfold ldsOf at hl
    rw [getNode_sub_res] at hl
    simp only [Option.getD_some, List.mem_cons, List.mem_singleton] at hl
    rcases hl with rfl | hl
    · exact ⟨by omega, by omega, by rw [getNode_sub_l1], by rw [getNode_sub_l1]⟩
    · have : l = g.length + 2 := by simpa using hl
      subst this
      exact ⟨by omega, by omega, by rw [getNode_sub_l2], by rw [getNode_sub_l2]⟩
  · unfold ldsOf
    rw [getNode_mul_res]
    rfl

theorem C6_local_derivative_representation_witness :
    ((0 : Nat) < 2 ∧ (1 : Nat) < 2) ∧
    (freshLocalDerivs
        (_add [⟨2, none, none, none, none⟩, ⟨3, none, none, none, none⟩] 0 1).1
        (_add [⟨2, none, none, none, none⟩, ⟨3, none, none, none, none⟩] 0 1).2
        0 1 ∧
      freshLocalDerivs
        (_sub [⟨2, none, none, none, none⟩, ⟨3, none, none, none, none⟩] 0 1).1
        (_sub [⟨2, none, none, none, none⟩, ⟨3, none, none, none, none⟩] 0 1).2
        0 1 ∧
      ldsOf (_mul [⟨2, none, none, none, none⟩,
          ⟨3, none, none, none, none⟩] 0 1).1
        (_mul [⟨2, none, none, none, none⟩,
          ⟨3, none, none, none, none⟩] 0 1).2 = [1, 0]) :=
  ⟨⟨by decide, by decide⟩,
    C6_local_derivative_representation
      (g := [⟨2, none, none, none, none⟩, ⟨3, none, none, none, none⟩])
      (by decide) (by decide)⟩

/-- C7: on an acyclic well-formed graph — with arbitrary pre-existing
derivative state — `backward` runs to completion: the reverse loop never
dereferences an absent derivative (a failed dereference is modelled as `none`,
and the result here is `some`), and the traversal order processed by the loop
is duplicate-free, so each node's outgoing contributions are pushed exactly
once. -/
theorem C7_backward_no_absent_deref {g : Graph} (hWF : WF g) {root : Nat}
    (hroot : root < g.length) :
    ∃ order visited g2,
      build_topo (setDeriv g root (some 1))
        (setDeriv g root (some 1)).length root ([], ∅) =
        some (order, visited) ∧
      order.Nodup ∧
      backward g root = some g2 := by
  obtain ⟨o, v, g2, h1, h2, h3, _, _⟩ := backward_total hWF hroot
  exact ⟨o, v, g2, h1, h2, h3⟩

theorem C7_backward_no_absent_deref_witness :
    (WF gdiamond ∧ 5 < gdiamond.length) ∧
    ∃ order visited g2,
      build_topo (setDeriv gdiamond 5 (some 1))
        (setDeriv gdiamond 5 (some 1)).length 5 ([], ∅) =
        some (order, visited) ∧
      order.Nodup ∧
      backward gdiamond 5 = some g2 :=
  ⟨⟨by decide, by decide⟩,
    C7_backward_no_absent_deref (by decide) (by decide)⟩

/-- C8: each of the six operator forms returns the unsupported-operand signal
(`NotImplemented`, modelled `none`) exactly when the operand is neither a
Tensor nor a plain number; Tensor and plain-number operands always produce a
result. -/
theorem C8_operand_type_dispatch (g : Graph) (s : Nat) :
    (dunder_add g s Operand.other = none ∧
      dunder_radd g s Operand.other = none ∧
      dunder_sub g s Operand.other = none ∧
      dunder_rsub g s Operand.other = none ∧
      dunder_mul g s Operand.other = none ∧
      dunder_rmul g s Operand.other = none) ∧
    (∀ i : Nat, (dunder_add g s (Operand.tensor i)).isSome ∧
      (dunder_radd g s (Operand.tensor i)).isSome ∧
      (dunder_sub g s (Operand.tensor i)).isSome ∧
      (dunder_rsub g s (Operand.tensor i)).isSome ∧
      (dunder_mul g s (Operand.tensor i)).isSome ∧
      (dunder_rmul g s (Operand.tensor i)).isSome) ∧
    (∀ x : ℚ, (dunder_add g s (Operand.num x)).isSome ∧
      (dunder_radd g s (Operand.num x)).isSome ∧
      (dunder_sub g s (Operand.num x)).isSome ∧
      (dunder_rsub g s (Operand.num x)).isSome ∧
      (dunder_mul g s (Operand.num x)).isSome ∧
      (dunder_rmul g s (Operand.num x)).isSome) :=
  ⟨⟨rfl, rfl, rfl, rfl, rfl, rfl⟩,
    fun _ => ⟨rfl, rfl, rfl, rfl, rfl, rfl⟩,
    fun _ => ⟨rfl, rfl, rfl, rfl, rfl, rfl⟩⟩

/-- C9: the elementary operations never mutate any pre-existing node (the
result heap extends the input heap, leaving every existing index untouched);
`backward` and `clear_derivatives` change at most the `derivative` field of
any node (`EqExceptDeriv`: `value`, `args`, `local_derivatives` and `name` are
everywhere unchanged) and leave nodes not reachable from the root entirely
unchanged. -/
theorem C9_frame_effects :
    (∀ (g : Graph) (a b i : Nat), i < g.length →
      getNode (_add g a b).1 i = getNode g i ∧
      getNode (_sub g a b).1 i = getNode g i ∧
      getNode (_mul g a b).1 i = getNode g i) ∧
    (∀ (g : Graph) (root : Nat) (g2 : Graph), WF g → root < g.length →
      backward g root = some g2 →
      EqExceptDeriv g g2 ∧
      ∀ j, ¬ Reaches g root j → getNode g2 j = getNode g j) ∧
    (∀ (g : Graph) (root : Nat) (g2 : Graph), WF g → root < g.length →
      clear_derivatives g root = some g2 →
      EqExceptDeriv g g2 ∧
      ∀ j, ¬ Reaches g root j → getNode g2 j = getNode g j) := by
  refine ⟨?_, ?_, ?_⟩
  · intro g a b i hi
    exact ⟨getNode_append_lt g _ i hi, getNode_append_lt g _ i hi,
      getNode_append_lt g _ i hi⟩
  · intro g root g2 hWF hroot hb
    obtain ⟨o, v, g2', _, _, hb', e', hU'⟩ := backward_total hWF hroot
    rw [hb] at hb'
    obtain rfl := Option.some.inj hb'
    exact ⟨e', hU'⟩
  · intro g root g2 hWF hroot hc
    obtain ⟨g2', hc', e', _, hU'⟩ := clear_spec hWF hroot
    rw [hc] at hc'
    obtain rfl := Option.some.inj hc'
    exact ⟨e', hU'⟩

theorem C9_frame_effects_witness :
    ((0 : Nat) < 1 ∧ WF [(⟨7, none, none, none, none⟩ : Tensor)] ∧
      backward [(⟨7, none, none, none, none⟩ : Tensor)] 0 =
        some [(⟨7, none, none, some 1, none⟩ : Tensor)] ∧
      clear_derivatives [(⟨7, none, none, none, none⟩ : Tensor)] 0 =
        some [(⟨7, none, none, none, none⟩ : Tensor)]) ∧
    (getNode (_add [(⟨7, none, none, none, none⟩ : Tensor)] 0 0).1 0 =
        getNode [(⟨7, none, none, none, none⟩ : Tensor)] 0) ∧
    (EqExceptDeriv [(⟨7, none, none, none, none⟩ : Tensor)]
        [(⟨7, none, none, some 1, none⟩ : Tensor)]) ∧
    (EqExceptDeriv [(⟨7, none, none, none, none⟩ : Tensor)]
        [(⟨7, none, none, none, none⟩ : Tensor)]) :=
  ⟨⟨by decide, by decide, by decide, by decide⟩,
    (C9_frame_effects.1 [⟨7, none, none, none, none⟩] 0 0 0 (by decide)).1,
    (C9_frame_effects.2.1 [⟨7, none, none, none, none⟩] 0
      [⟨7, none, none, some 1, none⟩] (by decide) (by decide) (by decide)).1,
    (C9_frame_effects.2.2 [⟨7, none, none, none, none⟩] 0
      [⟨7, none, none, none, none⟩] (by decide) (by decide) (by decide)).1⟩

/-- C10: the convenience layer wraps a plain number on either operand side as
a fresh leaf before delegating, so for `x = Tensor(3)`: `(x+2).value = 5`,
`(2+x).value = 5`, `(x*4).value = 12` and `(4*x).value = 12`. -/
theorem C10_scalar_coercion :
    ((dunder_add [⟨3, none, none, none, some "x"⟩] 0 (Operand.num 2)).map
      (fun p => (getNode p.1 p.2).value) = some 5) ∧
    ((dunder_radd [⟨3, none, none, none, some "x"⟩] 0 (Operand.num 2)).map
      (fun p => (getNode p.1 p.2).value) = some 5) ∧
    ((dunder_mul [⟨3, none, none, none, some "x"⟩] 0 (Operand.num 4)).map
      (fun p => (getNode p.1 p.2).value) = some 12) ∧
    ((dunder_rmul [⟨3, none, none, none, some "x"⟩] 0 (Operand.num 4)).map
      (fun p => (getNode p.1 p.2).value) = some 12) := by
  refine ⟨?_, ?_, ?_, ?_⟩ <;>
    norm_num [dunder_add, dunder_radd, dunder_mul, dunder_rmul, mkTensor,
      _add, _mul, getNode, defTensor]

end TensorAD
